import Mathlib

/-
Verification of the implicit-key splay tree (splay.h).

The container state is modelled by the subtree hanging from the sentinel
(dummy_.son_[0]): an inductive binary tree whose nodes carry the payload,
the cached subtree size (subtree_size_) and the pending-reverse flag
(reverse_).  The sentinel itself is represented implicitly: an empty tree
is the nil constructor, and iterators are ranks or root paths, with the
end iterator (the sentinel) encoded as none.

Parent pointers are replaced by zippers: a Frame records, for one ancestor
on the path from the focused node to the root, the physical side the focus
hangs on (son_[1] means side = true), the ancestor flag reverse_, the
cached subtree_size_, the payload and the other child.  The bottom-up
splay loop of the source becomes structural recursion over the frame list.
-/

namespace Splay

inductive STree (α : Type) : Type where
  | nil : STree α
  | node (sz : Nat) (rev : Bool) (left : STree α) (data : α) (right : STree α) : STree α
deriving DecidableEq

namespace STree

variable {α : Type}

/-- Cached subtree size: reads the subtree_size_ field (0 for an absent child),
as leftSubtreeSize and size() in the source do. -/
def subtreeSize : STree α → Nat
  | nil => 0
  | node sz _ _ _ _ => sz

/-- Number of nodes actually present in the subtree (not the cache). -/
def realSize : STree α → Nat
  | nil => 0
  | node _ _ l _ r => 1 + realSize l + realSize r

/-- Toggle the pending-reverse flag of the subtree root: son_[dir]->reverse_ ^= 1,
and also reverseTree() which does root().reverse_ ^= true on a non-empty tree. -/
def flipRev : STree α → STree α
  | nil => nil
  | node sz rev l d r => node sz (!rev) l d r

/-- Node::push from the source: if the flag is set, swap the two children,
toggle the flag on both of them and clear the own flag. -/
def push : STree α → STree α
  | nil => nil
  | node sz rev l d r =>
      if rev then node sz false (flipRev r) d (flipRev l) else node sz rev l d r

/-- The logical sequence stored in the subtree: in-order traversal after
resolving all pending-reverse flags top-down (the observation the spec
talks about; a set flag reverses the sequence of the subtree). -/
def seq : STree α → List α
  | nil => []
  | node _ rev l d r =>
      if rev then ((seq l) ++ d :: seq r).reverse else seq l ++ d :: seq r

/-- The size invariant: every cached subtree_size_ equals
1 + subtree_size(left) + subtree_size(right). -/
def sizeOk : STree α → Bool
  | nil => true
  | node sz _ l _ r =>
      (sz == 1 + subtreeSize l + subtreeSize r) && sizeOk l && sizeOk r

/-- No pending-reverse flag is set anywhere in the subtree. -/
def clean : STree α → Bool
  | nil => true
  | node _ rev l _ r => !rev && clean l && clean r

/-- Rebuild a node the way link / updateSubtreeSize does: the cached size is
recomputed from the cached sizes of the two children; the flag is whatever
the node currently carries (updateSubtreeSize never touches reverse_). -/
def mkSz (rev : Bool) (l : STree α) (d : α) (r : STree α) : STree α :=
  node (1 + subtreeSize l + subtreeSize r) rev l d r

/-- Payload of the subtree root, if any. -/
def rootData : STree α → Option α
  | nil => none
  | node _ _ _ d _ => some d

end STree

open STree

/-- buildTree from the source, with explicit fuel so that the recursion is
structural (the halves are strictly shorter lists, so any fuel of at least
the list length reproduces the source exactly): empty range gives no node, a
single element a leaf, otherwise the midpoint element (index dist / 2)
becomes the root and the two halves are built recursively and linked. -/
def buildTreeF {α : Type} : Nat → List α → STree α
  | _, [] => .nil
  | _, [x] => .node 1 false .nil x .nil
  | 0, _ => .nil
  | fuel + 1, x :: y :: rest =>
      mkSz false (buildTreeF fuel ((x :: y :: rest).take ((x :: y :: rest).length / 2)))
        ((x :: y :: rest).getD ((x :: y :: rest).length / 2) x)
        (buildTreeF fuel ((x :: y :: rest).drop ((x :: y :: rest).length / 2 + 1)))

/-- The balanced bulk construction from a range of elements. -/
def buildTree {α : Type} (xs : List α) : STree α :=
  buildTreeF xs.length xs

/-- One ancestor on the path from a focused node to the root.  side is the
physical child slot the focus occupies (true for son_[1]), rev / sz / d are
the reverse_, subtree_size_ and data_ fields of the ancestor, and other is
its other child subtree.  This replaces the dad_ back-pointers. -/
structure Frame (α : Type) where
  side : Bool
  rev : Bool
  sz : Nat
  d : α
  other : STree α

variable {α : Type}

/-- Reattach a focused subtree under its recorded ancestors, innermost frame
first.  This is the identity re-reading of the zipper: it rebuilds exactly
the tree the pointers of the source describe (cached sizes and flags are the
recorded ones, nothing is recomputed). -/
def plug : STree α → List (Frame α) → STree α
  | t, [] => t
  | t, ⟨false, rev, sz, d, o⟩ :: fs => plug (.node sz rev t d o) fs
  | t, ⟨true, rev, sz, d, o⟩ :: fs => plug (.node sz rev o d t) fs

/-- findNode from the source: starting at the root, push the visited node,
compare the target rank with the size of the left subtree, stop on equality
and descend otherwise.  The running total cumulated of the source is
replaced by the rank relative to the visited subtree (i - cumulated); the
comparison i < cumulated + leftSubtreeSize() becomes i < leftSubtreeSize().
The descent records a frame per visited ancestor, so the result is the
found node together with its root path; fuel bounds the loop, and none
models the null dereference the source runs into when the rank is out of
range (the loop runs off the tree). -/
def findLoop : Nat → STree α → Nat → List (Frame α) → Option (STree α × List (Frame α))
  | 0, _, _, _ => none
  | fuel + 1, t, i, acc =>
      match push t with
      | .nil => none
      | .node sz rev l d r =>
          if i = subtreeSize l then some (.node sz rev l d r, acc)
          else if i < subtreeSize l then
            findLoop fuel l i (⟨false, rev, sz, d, r⟩ :: acc)
          else
            findLoop fuel r (i - subtreeSize l - 1) (⟨true, rev, sz, d, l⟩ :: acc)

/-- findNode with enough fuel for any actual descent. -/
def findNode? (t : STree α) (i : Nat) : Option (STree α × List (Frame α)) :=
  findLoop (realSize t + 1) t i []

/-- Node::push applied to the parent frame of the focus: swapping the
children of the parent flips the side of the focus, toggles the flag of the
focus root and of the other child, and clears the parent flag. -/
def pushFrame (f : Frame α) (t : STree α) : Frame α × STree α :=
  if f.rev then (⟨!f.side, false, f.sz, f.d, flipRev f.other⟩, flipRev t) else (f, t)

/-- Node::push applied to the grandparent frame: the subtree rooted at the
parent is one of its children, so its flag toggle lands on the rev field of
the parent frame. -/
def pushFrameW (fw fv : Frame α) : Frame α × Frame α :=
  if fw.rev then
    (⟨!fw.side, false, fw.sz, fw.d, flipRev fw.other⟩, ⟨fv.side, !fv.rev, fv.sz, fv.d, fv.other⟩)
  else (fw, fv)

/-- rotate from the source, seen from the focused node u with parent frame f:
u takes the parent as its child on the side opposite to its own, the former
child of u on that side moves to the parent, and subtree sizes are
recomputed for the parent first and then u (updateSubtreeSize order).
Flags are never modified by rotate. -/
def rotate1 : STree α → Frame α → STree α
  | .nil, _ => .nil
  | .node _ rv lu du ru, f =>
      if f.side then mkSz rv (mkSz f.rev f.other f.d lu) du ru
      else mkSz rv lu du (mkSz f.rev ru f.d f.other)

/-- splay from the source as recursion over the recorded root path.
Zig (parent is root): push parent then u, rotate u once.
Otherwise push grandparent, parent and u, compare the two sides:
zig-zig rotates the parent first (realised by collapsing the two frames
into the frame that rotate(parent) leaves for u) and then u;
zig-zag rotates u twice. -/
def splayGo : STree α → List (Frame α) → STree α
  | t, [] => t
  | t, [fv] =>
      let p := pushFrame fv t
      rotate1 (push p.2) p.1
  | t, fv :: fw :: fs =>
      let pw := pushFrameW fw fv
      let pv := pushFrame pw.2 t
      let t2 := push pv.2
      if pv.1.side = pw.1.side then
        let newW :=
          if pv.1.side then mkSz pw.1.rev pw.1.other pw.1.d pv.1.other
          else mkSz pw.1.rev pv.1.other pw.1.d pw.1.other
        splayGo (rotate1 t2 ⟨pv.1.side, pv.1.rev, 1 + subtreeSize t2 + subtreeSize newW,
          pv.1.d, newW⟩) fs
      else
        splayGo (rotate1 (rotate1 t2 pv.1) pw.1) fs

/-- Faults surfaced by the container: the two thrown conditions, the throw on
incrementing the end iterator, and ub for executions on which the source has
undefined behaviour (dereferencing a null child). -/
inductive Err : Type where
  | outOfRange : Err
  | invalidRange : Err
  | endIncrement : Err
  | ub : Err
deriving DecidableEq

/-- at(index) of the source: bounds check first (throw out_of_range before
anything is touched), then splay(findNode(i)) and read the root payload.
Returns the value together with the restructured tree. -/
def atIdx (t : STree α) (i : Nat) : Except Err (α × STree α) :=
  if subtreeSize t ≤ i then .error .outOfRange
  else
    match findNode? t i with
    | none => .error .ub
    | some (u, fs) =>
        match splayGo u fs with
        | .nil => .error .ub
        | .node sz rv l d r => .ok (d, .node sz rv l d r)

/-- Rank denoted by an iterator argument of split: the size for end(). -/
def iterRank (t : STree α) (it : Option Nat) : Nat :=
  match it with
  | none => subtreeSize t
  | some r => r

/-- split(const_iterator) of the source, with the iterator given as its
logical rank (none for end()).  Decrementing the iterator either throws the
begin error, which split catches by moving the whole tree out, or lands on
the predecessor, rank r - 1, which is splayed to the root; then the right
child of the root is detached into the new tree and the root size is
recomputed.  The rank reading of the iterator walk is exact on trees
without pending-reverse flags, where the physical whichSon() ascent of
operator-- agrees with logical order and all its pushes are no-ops, and
after the cleaning findNode descent of split(size_type), which hands this
function the pushed path it descended; on a flagged tree handed a raw user
iterator the physical walk diverges from ranks (the flag-free restriction
the iterator-range claims carry).  splitItP below embeds the raw physical
walk itself. -/
def splitI (t : STree α) (it : Option Nat) : Option (STree α × STree α) :=
  let r := iterRank t it
  if r = 0 then some (.nil, t)
  else
    match findNode? t (r - 1) with
    | none => none
    | some (u, fs) =>
        match splayGo u fs with
        | .nil => none
        | .node _ rv l d rr => some (.node (1 + subtreeSize l) rv l d .nil, rr)

/-- split(size_type) of the source: builds an iterator from findNode(ls)
(undefined behaviour when ls is the size, since findNode runs off the tree)
and splits before it.  The pushes findNode performs on the way down are kept
by plugging the zipper back together before splitting. -/
def splitRank (t : STree α) (ls : Nat) : Option (STree α × STree α) :=
  match findNode? t ls with
  | none => none
  | some (u, fs) => splitI (plug u fs) (some ls)

/-- merge of the source: an empty receiver swaps with the argument, an empty
argument is a no-op, otherwise the last element is splayed to the root and
the argument tree is linked as its right child (link recomputes the root
size, the root flag is untouched).  Returns the receiver and the argument
after the call; the argument is always left empty. -/
def mergeFull (t rhs : STree α) : Option (STree α × STree α) :=
  match t with
  | .nil => some (rhs, .nil)
  | .node ts tv tl td tr =>
      match rhs with
      | .nil => some (.node ts tv tl td tr, .nil)
      | _ =>
          match findNode? (STree.node ts tv tl td tr) (subtreeSize (STree.node ts tv tl td tr) - 1) with
          | none => none
          | some (u, fs) =>
              match splayGo u fs with
              | .nil => none
              | .node _ rv l d _ => some (.node (1 + subtreeSize l + subtreeSize rhs) rv l d rhs, .nil)

/-- reverseTree of the source: toggle the root flag of a non-empty tree. -/
def reverseTree : STree α → STree α
  | .nil => .nil
  | .node sz rev l d r => .node sz (!rev) l d r

/-- reverse(first, last) of the source: whole-range fast path toggles the
root flag; then the two guards throw; the general path splits off the
suffix, splits off the prefix, toggles the flag of the middle part and
merges everything back in order. -/
def reverseF (t : STree α) (first last : Nat) : Except Err (STree α) :=
  if first = 0 ∧ last = subtreeSize t then .ok (reverseTree t)
  else if last < first then .error .invalidRange
  else if subtreeSize t < last then .error .outOfRange
  else
    match splitRank t last with
    | none => .error .ub
    | some (t1, right) =>
        match splitRank t1 first with
        | none => .error .ub
        | some (t2, center) =>
            match mergeFull t2 (reverseTree center) with
            | none => .error .ub
            | some (m1, _) =>
                match mergeFull m1 right with
                | none => .error .ub
                | some (m2, _) => .ok m2

/-- Physical path of the while loop of insert: follow son_[1] links (no
pushes) until a node without a right child is reached. -/
def rightSpinePath : STree α → List Bool
  | .nil => []
  | .node _ _ _ _ .nil => []
  | .node _ _ _ _ (.node a b c d e) => true :: rightSpinePath (.node a b c d e)

/-- Walk a physical path (no pushes) recording the frames of the visited
ancestors, innermost first; none when the path leaves the tree. -/
def framesTo : STree α → List Bool → Option (STree α × List (Frame α))
  | t, [] => some (t, [])
  | .nil, _ :: _ => none
  | .node sz rev l d r, false :: p =>
      (framesTo l p).map fun uf => (uf.1, uf.2 ++ [⟨false, rev, sz, d, r⟩])
  | .node sz rev l d r, true :: p =>
      (framesTo r p).map fun uf => (uf.1, uf.2 ++ [⟨true, rev, sz, d, l⟩])

/-- link a fresh node carrying v into the empty child slot side of the node
at path q (link recomputes the size of that parent, recorded in the frame),
then splay the new node to the root.  The pushes the splay performs on the
raw flags along the path are the ones of the source. -/
def attachSplay (t : STree α) (q : List Bool) (side : Bool) (v : α) : Option (STree α) :=
  match framesTo t q with
  | none => none
  | some (.nil, _) => none
  | some (.node _ rev l d r, fs) =>
      let f0 : Frame α :=
        if side then ⟨true, rev, 2 + subtreeSize l, d, l⟩
        else ⟨false, rev, 2 + subtreeSize r, d, r⟩
      some (splayGo (.node 1 false .nil v .nil) (f0 :: fs))

/-- insert(pos, value) of the source.  The iterator is the physical root path
of its node, none for end() (the sentinel, whose left child is the root).
If the node of pos has no physical left child the new node is linked there,
otherwise it is linked as the right child of the physical rightmost
descendant of that left subtree; the new node is then splayed to the root.
No push happens during this descent: the source reads son_[0] and son_[1]
directly, which is why pending flags derail the insertion point. -/
def insertF (t : STree α) (it : Option (List Bool)) (v : α) : Option (STree α) :=
  match it with
  | none =>
      match t with
      | .nil => some (.node 1 false .nil v .nil)
      | .node a b c d e =>
          attachSplay (.node a b c d e) (rightSpinePath (.node a b c d e)) true v
  | some p =>
      match framesTo t p with
      | none => none
      | some (.nil, _) => none
      | some (.node _ _ .nil _ _, _) => attachSplay t p false v
      | some (.node _ _ (.node a b c d e) _ _, _) =>
          attachSplay t (p ++ false :: rightSpinePath (.node a b c d e)) true v

/-- Logical rank of the root of a subtree within the sequence of that
subtree: the number of its elements that precede the root. -/
def posInSeq : STree α → Nat
  | .nil => 0
  | .node _ false l _ _ => (seq l).length
  | .node _ true _ _ r => (seq r).length

/-- The iterator erase returns, as the logical rank of its node in the
resulting tree: end() (none) when the tree is empty or the root has no
physical right child, otherwise the root of the physical right subtree of
the root. -/
def retIter : STree α → Option Nat
  | .nil => none
  | .node _ _ _ _ .nil => none
  | .node _ false l _ (.node a b c d e) =>
      some ((seq l).length + 1 + posInSeq (.node a b c d e))
  | .node _ true _ _ (.node a b c d e) =>
      some ((seq (STree.node a b c d e)).length - 1 - posInSeq (.node a b c d e))

/-- erase(first, last) of the source: split off the suffix at last, split
off the part before first, discard the middle, merge the suffix back, and
compute the returned iterator from the physical right child of the root.
Iterators are logical ranks (none for end()), a reading that is exact on
trees without pending-reverse flags: there the physical operator-- walks
inside the two splits agree with logical order, their pushes are no-ops,
and the node of first keeps its rank in the receiver after the first split
(a prefix of the sequence).  On a flagged tree the physical walks diverge
from ranks and the source can even splay a node that the first split moved
out of the receiver, so the iterator-range claim is restricted to
flag-free trees; eraseRangeP below embeds the physical walks themselves.
When first = last on a dereferenceable iterator, the node of first sits at
rank 0 of the already detached suffix, so the iterator decrement inside
the second split throws the begin error and the catch moves the whole
receiver out: the prefix is destroyed. -/
def eraseRange (t : STree α) (first last : Option Nat) : Option (STree α × Option Nat) :=
  match splitI t last with
  | none => none
  | some (t1, right) =>
      let step2 :=
        if first = last ∧ first ≠ none then some (STree.nil, t1)
        else splitI t1 first
      match step2 with
      | none => none
      | some (t2, _) =>
          match mergeFull t2 right with
          | none => none
          | some (m, _) => some (m, retIter m)

/-- erase(pos) of the source: copy the iterator, increment it (which throws
for end() before anything else runs) and erase the one-element range.  On a
flag-free tree the increment is exactly rank + 1 (end once the last rank is
passed); the same flag-free proviso as for eraseRange applies. -/
def eraseOne (t : STree α) (it : Option Nat) : Except Err (STree α × Option Nat) :=
  match it with
  | none => .error .endIncrement
  | some r =>
      let nxt : Option Nat := if r + 1 < subtreeSize t then some (r + 1) else none
      match eraseRange t (some r) nxt with
      | none => .error .ub
      | some p => .ok p

/-- Push the single node at a physical path, leaving everything else alone:
the elementary flag mutation the iterator increment / decrement walks
perform on each visited node. -/
def pushAt : STree α → List Bool → STree α
  | t, [] => push t
  | .nil, _ :: _ => .nil
  | .node sz rev l d r, false :: p => .node sz rev (pushAt l p) d r
  | .node sz rev l d r, true :: p => .node sz rev l d (pushAt r p)

/-- The descent branch of Iterator::operator-- taken after stepping into a
left child: push the node, and while it has a (post-push) right child step
into it and push it, recording the physical steps taken.  Fuel bounds the
loop; any fuel of at least the real size of the subtree reproduces the
source, since each step descends into a strictly smaller subtree. -/
def descRightF : Nat → STree α → STree α × List Bool
  | 0, t => (t, [])
  | fuel + 1, t =>
      match push t with
      | .nil => (.nil, [])
      | .node sz rv l d .nil => (.node sz rv l d .nil, [])
      | .node sz rv l d (.node a b c dd e) =>
          let x := descRightF fuel (.node a b c dd e)
          (.node sz rv l d x.1, true :: x.2)

/-- The descent branch of Iterator::operator++ taken after stepping into a
right child: push the node, and while it has a (post-push) left child step
into it and push it. -/
def descLeftF : Nat → STree α → STree α × List Bool
  | 0, t => (t, [])
  | fuel + 1, t =>
      match push t with
      | .nil => (.nil, [])
      | .node sz rv .nil d r => (.node sz rv .nil d r, [])
      | .node sz rv (.node a b c dd e) d r =>
          let x := descLeftF fuel (.node a b c dd e)
          (.node sz rv x.1 d r, false :: x.2)

/-- The whichSon() ascent of the iterator walks, computed on the reversed
root path: pop every trailing step on the given side, then drop the one
step on the other side (the final move to the parent).  none when the walk
ascends past the root to the sentinel: for operator-- that is the thrown
begin error, for operator++ the end iterator.  No node is pushed during
this ascent — the walk reads the physical sides as they are, which is why
it diverges from logical order on flagged trees. -/
def stripSideRev (side : Bool) : List Bool → Option (List Bool)
  | [] => none
  | b :: q => if b = side then stripSideRev side q else some q

/-- Iterator::operator-- started at the node with the given physical root
path: push the node; if it then has a left child, descend to the rightmost
node of that subtree (pushing each visited node), otherwise signal that the
physical whichSon() ascent is needed (inner none).  Outer none models the
walk being started on a path that does not reach a node, which no valid
iterator produces. -/
def decGo : STree α → List Bool → Option (STree α × Option (List Bool))
  | t, [] =>
      match push t with
      | .nil => none
      | .node sz rv .nil d r => some (.node sz rv .nil d r, none)
      | .node sz rv (.node a b c dd e) d r =>
          let x := descRightF (realSize (STree.node a b c dd e) + 1) (.node a b c dd e)
          some (.node sz rv x.1 d r, some (false :: x.2))
  | .nil, _ :: _ => none
  | .node sz rv l d r, false :: p =>
      (decGo l p).map fun x => (.node sz rv x.1 d r, x.2.map (fun q => false :: q))
  | .node sz rv l d r, true :: p =>
      (decGo r p).map fun x => (.node sz rv l d x.1, x.2.map (fun q => true :: q))

/-- Iterator::operator++ started at the node with the given physical root
path: push the node; if it then has a right child, descend to the leftmost
node of that subtree (pushing each visited node), otherwise signal that the
ascent is needed. -/
def incGo : STree α → List Bool → Option (STree α × Option (List Bool))
  | t, [] =>
      match push t with
      | .nil => none
      | .node sz rv l d .nil => some (.node sz rv l d .nil, none)
      | .node sz rv l d (.node a b c dd e) =>
          let x := descLeftF (realSize (STree.node a b c dd e) + 1) (.node a b c dd e)
          some (.node sz rv l d x.1, some (true :: x.2))
  | .nil, _ :: _ => none
  | .node sz rv l d r, false :: p =>
      (incGo l p).map fun x => (.node sz rv x.1 d r, x.2.map (fun q => false :: q))
  | .node sz rv l d r, true :: p =>
      (incGo r p).map fun x => (.node sz rv l d x.1, x.2.map (fun q => true :: q))

/-- The full Iterator::operator-- on an iterator given as a physical root
path (none for end(), the sentinel).  Decrementing end() pushes the
sentinel (a no-op, its flag is never set) and, when the tree is not empty,
descends to the physically rightmost node; on the empty tree the ascent
runs off the sentinel at once.  The result pairs the tree as mutated by the
pushes of the walk with some path of the predecessor, or none when the
walk threw the begin error — the single push at the start of the walk has
happened by then, so the mutated tree is returned in that case too. -/
def decWalk (t : STree α) (it : Option (List Bool)) :
    Option (STree α × Option (List Bool)) :=
  match it with
  | none =>
      match t with
      | .nil => some (.nil, none)
      | .node a b c d e =>
          let x := descRightF (realSize (STree.node a b c d e) + 1) (.node a b c d e)
          some (x.1, some x.2)
  | some p =>
      match decGo t p with
      | none => none
      | some (t1, some q) => some (t1, some q)
      | some (t1, none) => some (t1, (stripSideRev false p.reverse).map List.reverse)

/-- The full Iterator::operator++ on a dereferenceable iterator (the end
check of the source throws before this runs and is handled by the caller).
Returns the tree as mutated by the pushes of the walk and the new iterator,
none once the ascent walks past the root: the iterator became end(). -/
def incWalk (t : STree α) (p : List Bool) : Option (STree α × Option (List Bool)) :=
  match incGo t p with
  | none => none
  | some (t1, some q) => some (t1, some q)
  | some (t1, none) => some (t1, (stripSideRev true p.reverse).map List.reverse)

/-- split(const_iterator) of the source on a raw physical iterator: run
operator-- (pushes included); if it threw the begin error the catch moves
the receiver — as already mutated by the initial push of the walk — out
whole; otherwise splay the predecessor node (splayGo performs the
per-rotation pushes of the source and leaves a still-flagged node alone
when it is already the root, exactly as splay does), detach the physical
right child of the root into the new tree and recompute the root size. -/
def splitItP (t : STree α) (it : Option (List Bool)) : Option (STree α × STree α) :=
  match decWalk t it with
  | none => none
  | some (t1, none) => some (.nil, t1)
  | some (t1, some q) =>
      match framesTo t1 q with
      | none => none
      | some (.nil, _) => none
      | some (.node sz rv l d r, fs) =>
          match splayGo (.node sz rv l d r) fs with
          | .nil => none
          | .node _ rv2 l2 d2 r2 => some (.node (1 + subtreeSize l2) rv2 l2 d2 .nil, r2)

/-- erase(first, last) of the source with physical iterators, keeping only
the resulting receiver: split off the suffix at last, split the receiver at
first, discard the receiver of that second split and merge the suffix onto
its returned part.  first2 is the iterator first given as the physical
root path its node occupies in the receiver at the moment the second split
runs (the first split restructured the tree, so the pointer the source
holds sits at a new path by then); every completed execution of the source
has its pointer at some such path, so a property proved for every choice
of first2 covers them all.  Executions in which the first split moved the
node of first out of the receiver splay a foreign node in the source and
never reach a defined after-state. -/
def eraseRangeP (t : STree α) (last first2 : Option (List Bool)) : Option (STree α) :=
  match splitItP t last with
  | none => none
  | some (t1, right) =>
      match splitItP t1 first2 with
      | none => none
      | some (t2, _) => (mergeFull t2 right).map (fun p => p.1)

/-- erase(pos) of the source with a physical iterator: incrementing a copy
of end() throws before anything runs; otherwise operator++ computes the
iterator last (mutating the tree by its pushes) and the range [pos, last)
is erased, with first2 the post-split path of pos's node as in
eraseRangeP. -/
def eraseOneP (t : STree α) (pos first2 : Option (List Bool)) : Except Err (STree α) :=
  match pos with
  | none => .error .endIncrement
  | some p =>
      match incWalk t p with
      | none => .error .ub
      | some (t1, nxt) =>
          match eraseRangeP t1 nxt first2 with
          | none => .error .ub
          | some m => .ok m

/-- A public operation on one container.  Iterator arguments are physical
root paths (none for end()); the trees merge and swap consume or install
are given explicitly. -/
inductive Op (α : Type) : Type where
  | opAt (i : Nat) : Op α
  | opInsert (it : Option (List Bool)) (v : α) : Op α
  | opEraseOne (pos first2 : Option (List Bool)) : Op α
  | opEraseRange (last first2 : Option (List Bool)) : Op α
  | opSplitL (i : Nat) : Op α
  | opSplitR (i : Nat) : Op α
  | opSplitIterL (it : Option (List Bool)) : Op α
  | opSplitIterR (it : Option (List Bool)) : Op α
  | opMerge (rhs : STree α) : Op α
  | opSwap (rhs : STree α) : Op α
  | opReverse (first last : Nat) : Op α
  | opInc (it : Option (List Bool)) : Op α
  | opDec (it : Option (List Bool)) : Op α

/-- Apply one public call.  none marks exactly the executions on which the
source has no defined after-state: undefined behaviour (null dereference,
split at a rank of at least the size, a walk started on a path that is not
a node) or the splay of a node the receiver no longer owns.  A thrown
error that propagates to the caller leaves the tree exactly as the source
leaves it: unchanged for the guard throws of at, reverse and the end
checks (all before any mutation), and mutated only by the initial push of
the walk for the begin throw inside operator-- (which split additionally
catches).  For the two split operations the world keeps either the
receiver or the returned tree; opInc and opDec are the iterator steps,
which mutate the tree by their pushes. -/
def applyOp : Op α → STree α → Option (STree α)
  | .opAt i, t =>
      match atIdx t i with
      | .ok p => some p.2
      | .error .outOfRange => some t
      | .error _ => none
  | .opInsert it v, t => insertF t it v
  | .opEraseOne pos first2, t =>
      match eraseOneP t pos first2 with
      | .ok m => some m
      | .error .endIncrement => some t
      | .error _ => none
  | .opEraseRange last first2, t => eraseRangeP t last first2
  | .opSplitL i, t => (splitRank t i).map (fun p => p.1)
  | .opSplitR i, t => (splitRank t i).map (fun p => p.2)
  | .opSplitIterL it, t => (splitItP t it).map (fun p => p.1)
  | .opSplitIterR it, t => (splitItP t it).map (fun p => p.2)
  | .opMerge rhs, t => (mergeFull t rhs).map (fun p => p.1)
  | .opSwap rhs, _ => some rhs
  | .opReverse f l, t =>
      match reverseF t f l with
      | .ok t2 => some t2
      | .error .ub => none
      | .error _ => some t
  | .opInc it, t =>
      match it with
      | none => some t
      | some p => (incWalk t p).map (fun x => x.1)
  | .opDec it, t => (decWalk t it).map (fun x => x.1)

/-- Apply a list of operations left to right; none as soon as one execution
has no defined after-state. -/
def applyOps : List (Op α) → STree α → Option (STree α)
  | [], t => some t
  | op :: ops, t =>
      match applyOp op t with
      | none => none
      | some t2 => applyOps ops t2

/-- The trees an operation list smuggles in from outside satisfy the size
invariant (trees produced by the container itself always do). -/
def opsOk (ops : List (Op α)) : Bool :=
  ops.all (fun op => match op with
    | Op.opMerge rhs => sizeOk rhs
    | Op.opSwap rhs => sizeOk rhs
    | _ => true)

/-- Elements contributed by the recorded ancestors to the left of the
focused subtree, read off the zipper (innermost frame first). -/
def fsBefore : List (Frame α) → List α
  | [] => []
  | f :: fs => fsBefore fs ++ (if f.side then seq f.other ++ [f.d] else [])

/-- Elements contributed by the recorded ancestors to the right of the
focused subtree. -/
def fsAfter : List (Frame α) → List α
  | [] => []
  | f :: fs => (if f.side then [] else f.d :: seq f.other) ++ fsAfter fs

/-- All recorded ancestors have a cleared pending-reverse flag (the case
after a pushing descent such as findNode). -/
def CleanFrames (fs : List (Frame α)) : Prop :=
  ∀ f ∈ fs, f.rev = false

/-- The subtrees hanging off the recorded ancestors satisfy the size
invariant. -/
def FramesOk (fs : List (Frame α)) : Prop :=
  ∀ f ∈ fs, sizeOk f.other = true

/-- Logical rank of the node at a physical root path, for trees without
pending flags (the number of elements that precede it in order). -/
def pathRank : STree α → List Bool → Nat
  | .nil, _ => 0
  | .node _ _ l _ _, [] => (seq l).length
  | .node _ _ l _ _, false :: p => pathRank l p
  | .node _ _ l _ r, true :: p => (seq l).length + 1 + pathRank r p

/-- The physical path lands on a node of the tree. -/
def isNodePath : STree α → List Bool → Bool
  | .nil, _ => false
  | .node _ _ _ _ _, [] => true
  | .node _ _ l _ _, false :: p => isNodePath l p
  | .node _ _ _ _ r, true :: p => isNodePath r p

/-- Rank at which insert places the new element: before the node of the
iterator, or at the back for end(). -/
def insRank (t : STree α) (it : Option (List Bool)) : Nat :=
  match it with
  | none => (seq t).length
  | some p => pathRank t p

/-- A concrete operation sequence exercising every public operation
(including iterator walks and iterator-argument calls on a flagged tree),
used to instantiate the size-invariant theorem. -/
def opsW : List (Op Nat) :=
  [.opAt 1, .opReverse 0 3, .opInsert none 5, .opDec none, .opInc (some []),
   .opEraseOne (some []) (some []), .opSplitR 1, .opMerge (buildTree [7, 8]),
   .opSwap (buildTree [9, 10, 11]), .opSplitL 2, .opEraseRange none (some []),
   .opSplitIterR (some []), .opInsert (some []) 4, .opInsert none 6,
   .opSplitIterL none, .opAt 0, .opReverse 1 2]

/-- The tree the operation sequence opsW produces from the tree built from
[1, 2, 3] (the run completes, so the default is never taken). -/
def opsWRes : STree Nat :=
  (applyOps opsW (buildTree [1, 2, 3])).getD .nil

theorem seq_flipRev (t : STree α) : seq (flipRev t) = (seq t).reverse := by
  cases t with
  | nil => rfl
  | node sz rev l d r => cases rev <;> simp [flipRev, seq]

theorem seq_push (t : STree α) : seq (push t) = seq t := by
  cases t with
  | nil => rfl
  | node sz rev l d r => cases rev <;> simp [push, seq, seq_flipRev]

theorem subtreeSize_flipRev (t : STree α) : subtreeSize (flipRev t) = subtreeSize t := by
  cases t <;> rfl

theorem subtreeSize_push (t : STree α) : subtreeSize (push t) = subtreeSize t := by
  cases t with
  | nil => rfl
  | node sz rev l d r => cases rev <;> simp [push, subtreeSize]

theorem sizeOk_flipRev (t : STree α) : sizeOk (flipRev t) = sizeOk t := by
  cases t <;> rfl

theorem sizeOk_push (t : STree α) : sizeOk (push t) = sizeOk t := by
  cases t with
  | nil => rfl
  | node sz rev l d r =>
    cases rev
    · rfl
    · simp only [push, if_pos, sizeOk, subtreeSize_flipRev, sizeOk_flipRev]
      rw [Nat.add_right_comm]
      rw [Bool.and_right_comm]

theorem length_seq {t : STree α} (h : sizeOk t = true) : (seq t).length = subtreeSize t := by
  induction t with
  | nil => rfl
  | node sz rev l d r ihl ihr =>
    simp only [sizeOk, Bool.and_eq_true, beq_iff_eq] at h
    obtain ⟨⟨hsz, hl⟩, hr⟩ := h
    cases rev <;> simp [seq, ihl hl, ihr hr, subtreeSize, hsz] <;> omega

theorem realSize_eq {t : STree α} (h : sizeOk t = true) : realSize t = subtreeSize t := by
  induction t with
  | nil => rfl
  | node sz rev l d r ihl ihr =>
    simp only [sizeOk, Bool.and_eq_true, beq_iff_eq] at h
    obtain ⟨⟨hsz, hl⟩, hr⟩ := h
    simp [realSize, ihl hl, ihr hr, subtreeSize, hsz]

theorem sizeOk_mkSz {rv : Bool} {l r : STree α} {d : α} :
    sizeOk (mkSz rv l d r) = (sizeOk l && sizeOk r) := by
  simp [mkSz, sizeOk]

theorem seq_mkSz {rv : Bool} {l r : STree α} {d : α} :
    seq (mkSz rv l d r) = if rv then ((seq l) ++ d :: seq r).reverse else seq l ++ d :: seq r := by
  simp [mkSz, seq]

theorem push_clean_node {sz : Nat} {l r : STree α} {d : α} :
    push (.node sz false l d r) = .node sz false l d r := by
  simp [push]

theorem push_shape {t : STree α} {sz : Nat} {rv : Bool} {l r : STree α} {d : α}
    (h : push t = .node sz rv l d r) : rv = false := by
  cases t with
  | nil => simp [push] at h
  | node sz2 rev2 l2 d2 r2 =>
    cases rev2 <;> simp [push] at h <;> exact h.2.1

theorem fsBefore_append (a b : List (Frame α)) :
    fsBefore (a ++ b) = fsBefore b ++ fsBefore a := by
  induction a with
  | nil => simp [fsBefore]
  | cons f fs ih => simp [fsBefore, ih]

theorem fsAfter_append (a b : List (Frame α)) :
    fsAfter (a ++ b) = fsAfter a ++ fsAfter b := by
  induction a with
  | nil => simp [fsAfter]
  | cons f fs ih => simp [fsAfter, ih]

theorem plug_append (t : STree α) (a b : List (Frame α)) :
    plug t (a ++ b) = plug (plug t a) b := by
  induction a generalizing t with
  | nil => rfl
  | cons f fs ih =>
    obtain ⟨side, rev, sz, d, o⟩ := f
    cases side <;> simp [plug, ih]

theorem seq_plug_clean (fs : List (Frame α)) (t : STree α) (h : CleanFrames fs) :
    seq (plug t fs) = fsBefore fs ++ seq t ++ fsAfter fs := by
  induction fs generalizing t with
  | nil => simp [plug, fsBefore, fsAfter]
  | cons f fs ih =>
    obtain ⟨hf, hfs⟩ := List.forall_mem_cons.mp h
    obtain ⟨side, rev, sz, d, o⟩ := f
    simp only at hf
    subst hf
    cases side <;>
      simp [plug, ih _ hfs, fsBefore, fsAfter, seq]

theorem push_spec {t : STree α} (hok : sizeOk t = true) (hne : t ≠ .nil) :
    ∃ l d r, push t = .node (subtreeSize t) false l d r ∧
      seq t = seq l ++ d :: seq r ∧
      sizeOk l = true ∧ sizeOk r = true ∧
      subtreeSize t = 1 + subtreeSize l + subtreeSize r ∧
      (seq l).length = subtreeSize l ∧ (seq r).length = subtreeSize r := by
  cases t with
  | nil => exact absurd rfl hne
  | node sz rev l d r =>
    simp only [sizeOk, Bool.and_eq_true, beq_iff_eq] at hok
    obtain ⟨⟨hsz, hl⟩, hr⟩ := hok
    cases rev with
    | false =>
      refine ⟨l, d, r, ?_, ?_, hl, hr, ?_, length_seq hl, length_seq hr⟩
      · simp [push, subtreeSize]
      · simp [seq]
      · simpa [subtreeSize] using hsz
    | true =>
      refine ⟨flipRev r, d, flipRev l, ?_, ?_, ?_, ?_, ?_, ?_, ?_⟩
      · simp [push, subtreeSize]
      · simp [seq, seq_flipRev]
      · simpa [sizeOk_flipRev] using hr
      · simpa [sizeOk_flipRev] using hl
      · rw [subtreeSize_flipRev, subtreeSize_flipRev,
          show subtreeSize (STree.node sz true l d r) = sz from rfl]
        omega
      · simp [seq_flipRev, subtreeSize_flipRev, length_seq hr]
      · simp [seq_flipRev, subtreeSize_flipRev, length_seq hl]

theorem seq_plug_congr (fs : List (Frame α)) (x y : STree α) (h : seq x = seq y) :
    seq (plug x fs) = seq (plug y fs) := by
  induction fs generalizing x y with
  | nil => simpa [plug] using h
  | cons f fs ih =>
    obtain ⟨side, rev, sz, d, o⟩ := f
    cases side <;> (apply ih; cases rev <;> simp [seq, h])

theorem sizeOk_plug_congr (fs : List (Frame α)) (x y : STree α)
    (hs : subtreeSize x = subtreeSize y) (ho : sizeOk x = sizeOk y) :
    sizeOk (plug x fs) = sizeOk (plug y fs) := by
  induction fs generalizing x y with
  | nil => simpa [plug] using ho
  | cons f fs ih =>
    obtain ⟨side, rev, sz, d, o⟩ := f
    cases side
    · apply ih
      · simp [subtreeSize]
      · simp [sizeOk, hs, ho]
    · apply ih
      · simp [subtreeSize]
      · simp [sizeOk, hs, ho]

theorem findLoop_plug :
    ∀ (fuel : Nat) (t : STree α) (i : Nat) (acc : List (Frame α)) (u : STree α)
      (fs : List (Frame α)), findLoop fuel t i acc = some (u, fs) →
      seq (plug u fs) = seq (plug t acc) ∧ sizeOk (plug u fs) = sizeOk (plug t acc)
  | 0, t, i, acc, u, fs => by
    intro h
    simp [findLoop] at h
  | fuel + 1, t, i, acc, u, fs => by
    intro h
    rcases hP : push t with _ | ⟨sz, rev, l, d, r⟩
    · simp [findLoop, hP] at h
    simp only [findLoop, hP] at h
    have hseq : seq (STree.node sz rev l d r) = seq t := by rw [← hP, seq_push]
    have hsub : subtreeSize (STree.node sz rev l d r) = subtreeSize t := by
      rw [← hP, subtreeSize_push]
    have hsok : sizeOk (STree.node sz rev l d r) = sizeOk t := by
      rw [← hP, sizeOk_push]
    by_cases h1 : i = subtreeSize l
    · rw [if_pos h1] at h
      simp only [Option.some.injEq, Prod.mk.injEq] at h
      obtain ⟨hu, hfs⟩ := h
      subst hu hfs
      exact ⟨seq_plug_congr _ _ _ hseq, sizeOk_plug_congr _ _ _ hsub hsok⟩
    · simp only [if_neg h1] at h
      by_cases h2 : i < subtreeSize l
      · simp only [if_pos h2] at h
        have ih := findLoop_plug fuel l i (⟨false, rev, sz, d, r⟩ :: acc) u fs h
        rw [show plug l (⟨false, rev, sz, d, r⟩ :: acc) = plug (.node sz rev l d r) acc from rfl]
          at ih
        exact ⟨ih.1.trans (seq_plug_congr _ _ _ hseq),
          ih.2.trans (sizeOk_plug_congr _ _ _ hsub hsok)⟩
      · simp only [if_neg h2] at h
        have ih := findLoop_plug fuel r (i - subtreeSize l - 1)
          (⟨true, rev, sz, d, l⟩ :: acc) u fs h
        rw [show plug r (⟨true, rev, sz, d, l⟩ :: acc) = plug (.node sz rev l d r) acc from rfl]
          at ih
        exact ⟨ih.1.trans (seq_plug_congr _ _ _ hseq),
          ih.2.trans (sizeOk_plug_congr _ _ _ hsub hsok)⟩

theorem take_at_mid {γ : Type} (xs ys : List γ) (dd : γ) (n : Nat) (h : n = xs.length) :
    (xs ++ dd :: ys).take n = xs := by
  subst h
  exact List.take_left xs (dd :: ys)

theorem drop_after_mid {γ : Type} (xs ys : List γ) (dd : γ) (n : Nat) (h : n = xs.length) :
    (xs ++ dd :: ys).drop (n + 1) = ys := by
  subst h
  rw [List.drop_append_eq_append_drop, List.drop_eq_nil_of_le (by omega)]
  simp

theorem take_right_mid {γ : Type} (xs ys : List γ) (dd : γ) (i : Nat) (h : xs.length < i) :
    (xs ++ dd :: ys).take i = xs ++ dd :: ys.take (i - xs.length - 1) := by
  rw [List.take_append_eq_append_take, List.take_of_length_le (by omega)]
  congr 1
  conv_lhs => rw [show i - xs.length = (i - xs.length - 1) + 1 from by omega]
  rw [List.take_succ_cons]

theorem drop_right_mid {γ : Type} (xs ys : List γ) (dd : γ) (i : Nat) (h : xs.length < i) :
    (xs ++ dd :: ys).drop (i + 1) = ys.drop (i - xs.length) := by
  rw [List.drop_append_eq_append_drop, List.drop_eq_nil_of_le (by omega)]
  rw [show i + 1 - xs.length = (i - xs.length) + 1 from by omega, List.drop_succ_cons]
  simp

theorem subtreeSize_mkSz {rv : Bool} {l r : STree α} {d : α} :
    subtreeSize (mkSz rv l d r) = 1 + subtreeSize l + subtreeSize r := rfl

theorem pushFrame_false {f : Frame α} {t : STree α} (h : f.rev = false) :
    pushFrame f t = (f, t) := by
  simp [pushFrame, h]

theorem pushFrameW_false {g f : Frame α} (h : g.rev = false) :
    pushFrameW g f = (g, f) := by
  simp [pushFrameW, h]

theorem pushFrame_inv (f : Frame α) (t : STree α) :
    sizeOk (pushFrame f t).1.other = sizeOk f.other ∧
      sizeOk (pushFrame f t).2 = sizeOk t := by
  cases hfr : f.rev <;> simp [pushFrame, hfr, sizeOk_flipRev]

theorem pushFrameW_inv (g f : Frame α) :
    sizeOk (pushFrameW g f).1.other = sizeOk g.other ∧
      sizeOk (pushFrameW g f).2.other = sizeOk f.other := by
  cases hg : g.rev <;> simp [pushFrameW, hg, sizeOk_flipRev]

theorem rotate1_sizeOk {t : STree α} {f : Frame α} (ht : sizeOk t = true)
    (hf : sizeOk f.other = true) : sizeOk (rotate1 t f) = true := by
  cases t with
  | nil => simp [rotate1, sizeOk]
  | node sz rv lu du ru =>
    simp only [sizeOk, Bool.and_eq_true] at ht
    obtain ⟨⟨_, hl⟩, hr⟩ := ht
    cases hs : f.side <;>
      simp [rotate1, hs, sizeOk_mkSz, subtreeSize_mkSz, hl, hr, hf, sizeOk]

theorem splayGo_sizeOk :
    ∀ (fs : List (Frame α)) (t : STree α),
      sizeOk t = true → FramesOk fs → sizeOk (splayGo t fs) = true
  | [], t => fun ht _ => ht
  | [f], t => by
    intro ht hf
    have hfo : sizeOk f.other = true := hf f (by simp)
    simp only [splayGo]
    have h1 : sizeOk (pushFrame f t).1.other = true := by
      rw [(pushFrame_inv f t).1]; exact hfo
    have h2 : sizeOk (push (pushFrame f t).2) = true := by
      rw [sizeOk_push, (pushFrame_inv f t).2]; exact ht
    exact rotate1_sizeOk h2 h1
  | f :: g :: rest, t => by
    intro ht hf
    have hfo : sizeOk f.other = true := hf f (by simp)
    have hgo : sizeOk g.other = true := hf g (by simp)
    have hrest : FramesOk rest := fun x hx => hf x (by simp [hx])
    simp only [splayGo]
    have h1 : sizeOk (pushFrameW g f).1.other = true := by
      rw [(pushFrameW_inv g f).1]; exact hgo
    have h2 : sizeOk (pushFrameW g f).2.other = true := by
      rw [(pushFrameW_inv g f).2]; exact hfo
    have h3 : sizeOk (pushFrame (pushFrameW g f).2 t).1.other = true := by
      rw [(pushFrame_inv (pushFrameW g f).2 t).1]; exact h2
    have h5 : sizeOk (push (pushFrame (pushFrameW g f).2 t).2) = true := by
      rw [sizeOk_push, (pushFrame_inv (pushFrameW g f).2 t).2]; exact ht
    by_cases hss : (pushFrame (pushFrameW g f).2 t).1.side = (pushFrameW g f).1.side
    · rw [if_pos hss]
      apply splayGo_sizeOk rest _ _ hrest
      apply rotate1_sizeOk h5
      show sizeOk (if (pushFrame (pushFrameW g f).2 t).1.side then _ else _) = true
      cases (pushFrame (pushFrameW g f).2 t).1.side <;>
        simp [sizeOk_mkSz, h1, h3]
    · rw [if_neg hss]
      apply splayGo_sizeOk rest _ _ hrest
      exact rotate1_sizeOk (rotate1_sizeOk h5 h3) h1

theorem splayGo_spec :
    ∀ (fs : List (Frame α)) (sz : Nat) (l : STree α) (d : α) (r : STree α),
      CleanFrames fs →
      ∃ sz2 L R, splayGo (.node sz false l d r) fs = .node sz2 false L d R ∧
        seq L = fsBefore fs ++ seq l ∧ seq R = seq r ++ fsAfter fs
  | [], sz, l, d, r => by
    intro _
    exact ⟨sz, l, r, rfl, by simp [fsBefore], by simp [fsAfter]⟩
  | [f], sz, l, d, r => by
    intro hcl
    have hfr : f.rev = false := hcl f (by simp)
    simp only [splayGo, pushFrame_false hfr, push_clean_node]
    cases hs : f.side
    · refine ⟨1 + subtreeSize l + subtreeSize (mkSz f.rev r f.d f.other), l,
        mkSz f.rev r f.d f.other, ?_, ?_, ?_⟩
      · simp [rotate1, hs, mkSz]
      · simp [fsBefore, hs]
      · simp [seq_mkSz, hfr, fsAfter, hs]
    · refine ⟨1 + subtreeSize (mkSz f.rev f.other f.d l) + subtreeSize r,
        mkSz f.rev f.other f.d l, r, ?_, ?_, ?_⟩
      · simp [rotate1, hs, mkSz]
      · simp [seq_mkSz, hfr, fsBefore, hs]
      · simp [fsAfter, hs]
  | f :: g :: rest, sz, l, d, r => by
    intro hcl
    have hf : f.rev = false := hcl f (by simp)
    have hg : g.rev = false := hcl g (by simp)
    have hrest : CleanFrames rest := fun x hx => hcl x (by simp [hx])
    simp only [splayGo, pushFrameW_false hg, pushFrame_false hf, push_clean_node]
    by_cases hss : f.side = g.side
    · rw [if_pos hss]
      cases hs : f.side
      · have hgs : g.side = false := by rw [← hss, hs]
        simp only [hs, hf, Bool.false_eq_true, if_false]
        obtain ⟨sz2, L, R, heq, hL, hR⟩ :=
          splayGo_spec rest _ l d (mkSz false r f.d (mkSz g.rev f.other g.d g.other)) hrest
        refine ⟨sz2, L, R, ?_, ?_, ?_⟩
        · rw [show rotate1 (STree.node sz false l d r)
              ⟨false, false, 1 + subtreeSize (STree.node sz false l d r) +
                subtreeSize (mkSz g.rev f.other g.d g.other), f.d,
                mkSz g.rev f.other g.d g.other⟩
              = STree.node (1 + subtreeSize l +
                  subtreeSize (mkSz false r f.d (mkSz g.rev f.other g.d g.other))) false l d
                  (mkSz false r f.d (mkSz g.rev f.other g.d g.other)) from by
            simp [rotate1, mkSz]]
          exact heq
        · rw [hL]
          simp [fsBefore, hs, hgs]
        · rw [hR]
          simp [seq_mkSz, hg, fsAfter, hs, hgs]
      · have hgs : g.side = true := by rw [← hss, hs]
        simp only [hs, hf, if_true]
        obtain ⟨sz2, L, R, heq, hL, hR⟩ :=
          splayGo_spec rest _ (mkSz false (mkSz g.rev g.other g.d f.other) f.d l) d r hrest
        refine ⟨sz2, L, R, ?_, ?_, ?_⟩
        · rw [show rotate1 (STree.node sz false l d r)
              ⟨true, false, 1 + subtreeSize (STree.node sz false l d r) +
                subtreeSize (mkSz g.rev g.other g.d f.other), f.d,
                mkSz g.rev g.other g.d f.other⟩
              = STree.node (1 + subtreeSize (mkSz false (mkSz g.rev g.other g.d f.other) f.d l) +
                  subtreeSize r) false (mkSz false (mkSz g.rev g.other g.d f.other) f.d l) d
                  r from by
            simp [rotate1, mkSz]]
          exact heq
        · rw [hL]
          simp [seq_mkSz, hg, fsBefore, hs, hgs]
        · rw [hR]
          simp [fsAfter, hs, hgs]
    · rw [if_neg hss]
      cases hs : f.side
      · have hgs : g.side = true := by
          cases hg2 : g.side
          · rw [hs, hg2] at hss; exact absurd rfl hss
          · rfl
        obtain ⟨sz2, L, R, heq, hL, hR⟩ :=
          splayGo_spec rest _ (mkSz g.rev g.other g.d l) d
            (mkSz f.rev r f.d f.other) hrest
        refine ⟨sz2, L, R, ?_, ?_, ?_⟩
        · rw [show rotate1 (rotate1 (STree.node sz false l d r) f) g
              = STree.node (1 + subtreeSize (mkSz g.rev g.other g.d l) +
                  subtreeSize (mkSz f.rev r f.d f.other)) false
                  (mkSz g.rev g.other g.d l) d (mkSz f.rev r f.d f.other) from by
            simp [rotate1, hs, hgs, mkSz]]
          exact heq
        · rw [hL]
          simp [seq_mkSz, hg, fsBefore, hs, hgs]
        · rw [hR]
          simp [seq_mkSz, hf, fsAfter, hs, hgs]
      · have hgs : g.side = false := by
          cases hg2 : g.side
          · rfl
          · rw [hs, hg2] at hss; exact absurd rfl hss
        obtain ⟨sz2, L, R, heq, hL, hR⟩ :=
          splayGo_spec rest _ (mkSz f.rev f.other f.d l) d
            (mkSz g.rev r g.d g.other) hrest
        refine ⟨sz2, L, R, ?_, ?_, ?_⟩
        · rw [show rotate1 (rotate1 (STree.node sz false l d r) f) g
              = STree.node (1 + subtreeSize (mkSz f.rev f.other f.d l) +
                  subtreeSize (mkSz g.rev r g.d g.other)) false
                  (mkSz f.rev f.other f.d l) d (mkSz g.rev r g.d g.other) from by
            simp [rotate1, hs, hgs, mkSz]]
          exact heq
        · rw [hL]
          simp [seq_mkSz, hf, fsBefore, hs, hgs]
        · rw [hR]
          simp [seq_mkSz, hg, fsAfter, hs, hgs]

theorem findLoop_pos :
    ∀ (fuel : Nat) (t : STree α) (i : Nat) (acc : List (Frame α)),
      sizeOk t = true → i < subtreeSize t → subtreeSize t < fuel →
      ∃ sz l d r fs, findLoop fuel t i acc = some (.node sz false l d r, fs) ∧
        fsBefore fs ++ seq l = fsBefore acc ++ (seq t).take i ∧
        seq r ++ fsAfter fs = (seq t).drop (i + 1) ++ fsAfter acc ∧
        (seq t).take i ++ d :: (seq t).drop (i + 1) = seq t
  | 0, t, i, acc => by
    intro _ _ hfuel
    omega
  | fuel + 1, t, i, acc => by
    intro hok hi hfuel
    have hne : t ≠ .nil := by
      intro he
      rw [he] at hi
      simp [subtreeSize] at hi
    obtain ⟨l', d', r', hP, hseq, hokl, hokr, hsum, hlenl, hlenr⟩ := push_spec hok hne
    simp only [findLoop, hP]
    by_cases h1 : i = subtreeSize l'
    · rw [if_pos h1]
      refine ⟨subtreeSize t, l', d', r', acc, rfl, ?_, ?_, ?_⟩
      · rw [hseq, take_at_mid _ _ _ i (by omega)]
      · rw [hseq, drop_after_mid _ _ _ i (by omega)]
      · rw [hseq, take_at_mid _ _ _ i (by omega), drop_after_mid _ _ _ i (by omega)]
    · rw [if_neg h1]
      by_cases h2 : i < subtreeSize l'
      · rw [if_pos h2]
        obtain ⟨sz, L, D, R, fs, hfind, hA, hB, hC⟩ :=
          findLoop_pos fuel l' i (⟨false, false, subtreeSize t, d', r'⟩ :: acc) hokl h2
            (by omega)
        simp only [fsBefore, fsAfter, if_neg Bool.false_ne_true, List.append_nil] at hA hB
        refine ⟨sz, L, D, R, fs, hfind, ?_, ?_, ?_⟩
        · rw [hseq, List.take_append_of_le_length (by omega)]
          exact hA
        · rw [hseq, List.drop_append_of_le_length (by omega)]
          rw [hB]
          simp
        · rw [hseq, List.take_append_of_le_length (by omega),
            List.drop_append_of_le_length (by omega)]
          rw [show (seq l').take i ++ D :: ((seq l').drop (i + 1) ++ d' :: seq r')
              = ((seq l').take i ++ D :: (seq l').drop (i + 1)) ++ d' :: seq r' from by simp]
          rw [hC]
      · rw [if_neg h2]
        have hgt : subtreeSize l' < i := by omega
        obtain ⟨sz, L, D, R, fs, hfind, hA, hB, hC⟩ :=
          findLoop_pos fuel r' (i - subtreeSize l' - 1)
            (⟨true, false, subtreeSize t, d', l'⟩ :: acc) hokr (by omega) (by omega)
        simp only [fsBefore, fsAfter, if_pos, List.nil_append] at hA hB
        refine ⟨sz, L, D, R, fs, hfind, ?_, ?_, ?_⟩
        · rw [hseq, take_right_mid _ _ _ i (by omega), hlenl]
          rw [hA]
          simp
        · rw [hseq, drop_right_mid _ _ _ i (by omega), hlenl]
          rw [show i - subtreeSize l' - 1 + 1 = i - subtreeSize l' from by omega] at hB
          exact hB
        · rw [hseq, take_right_mid _ _ _ i (by omega), drop_right_mid _ _ _ i (by omega),
            hlenl]
          rw [show i - subtreeSize l' - 1 + 1 = i - subtreeSize l' from by omega] at hC
          rw [show (seq l' ++ d' :: (seq r').take (i - subtreeSize l' - 1)) ++
              D :: (seq r').drop (i - subtreeSize l') = seq l' ++
              d' :: ((seq r').take (i - subtreeSize l' - 1) ++
                D :: (seq r').drop (i - subtreeSize l')) from by simp]
          rw [hC]

theorem findLoop_frames :
    ∀ (fuel : Nat) (t : STree α) (i : Nat) (acc : List (Frame α)) (u : STree α)
      (fs : List (Frame α)),
      sizeOk t = true → CleanFrames acc → FramesOk acc →
      findLoop fuel t i acc = some (u, fs) →
      sizeOk u = true ∧ CleanFrames fs ∧ FramesOk fs ∧
        ∃ sz l d r, u = .node sz false l d r
  | 0, t, i, acc, u, fs => by
    intro _ _ _ h
    simp [findLoop] at h
  | fuel + 1, t, i, acc, u, fs => by
    intro hok hcl hfo h
    rcases hP : push t with _ | ⟨sz, rev, l, d, r⟩
    · simp [findLoop, hP] at h
    simp only [findLoop, hP] at h
    have hrev : rev = false := push_shape hP
    have hsok : sizeOk (STree.node sz rev l d r) = true := by rw [← hP, sizeOk_push]; exact hok
    have hl : sizeOk l = true := by
      simp only [sizeOk, Bool.and_eq_true] at hsok
      exact hsok.1.2
    have hr : sizeOk r = true := by
      simp only [sizeOk, Bool.and_eq_true] at hsok
      exact hsok.2
    by_cases h1 : i = subtreeSize l
    · rw [if_pos h1] at h
      simp only [Option.some.injEq, Prod.mk.injEq] at h
      obtain ⟨hu, hfs⟩ := h
      subst hu hfs
      exact ⟨hsok, hcl, hfo, sz, l, d, r, by rw [hrev]⟩
    · simp only [if_neg h1] at h
      by_cases h2 : i < subtreeSize l
      · simp only [if_pos h2] at h
        refine findLoop_frames fuel l i _ u fs hl ?_ ?_ h
        · intro f hf
          rcases List.mem_cons.mp hf with hf | hf
          · rw [hf, hrev]
          · exact hcl f hf
        · intro f hf
          rcases List.mem_cons.mp hf with hf | hf
          · rw [hf]; exact hr
          · exact hfo f hf
      · simp only [if_neg h2] at h
        refine findLoop_frames fuel r (i - subtreeSize l - 1) _ u fs hr ?_ ?_ h
        · intro f hf
          rcases List.mem_cons.mp hf with hf | hf
          · rw [hf, hrev]
          · exact hcl f hf
        · intro f hf
          rcases List.mem_cons.mp hf with hf | hf
          · rw [hf]; exact hl
          · exact hfo f hf

theorem take_mid_succ {γ : Type} (xs ys : List γ) (dd : γ) (n : Nat) (h : n = xs.length) :
    (xs ++ dd :: ys).take (n + 1) = xs ++ [dd] := by
  subst h
  rw [List.take_append_eq_append_take, List.take_of_length_le (by omega)]
  simp

theorem CleanFrames_nil : CleanFrames ([] : List (Frame α)) := by
  intro f hf
  simp at hf

theorem FramesOk_nil : FramesOk ([] : List (Frame α)) := by
  intro f hf
  simp at hf

theorem findNode_spec (t : STree α) (i : Nat) (hok : sizeOk t = true)
    (hi : i < subtreeSize t) :
    ∃ sz l d r fs, findNode? t i = some (.node sz false l d r, fs) ∧
      fsBefore fs ++ seq l = (seq t).take i ∧
      seq r ++ fsAfter fs = (seq t).drop (i + 1) ∧
      (seq t).take i ++ d :: (seq t).drop (i + 1) = seq t ∧
      CleanFrames fs ∧ FramesOk fs ∧ sizeOk (STree.node sz false l d r) = true := by
  obtain ⟨sz, l, d, r, fs, hfind, hA, hB, hC⟩ :=
    findLoop_pos (realSize t + 1) t i [] hok hi (by rw [realSize_eq hok]; omega)
  obtain ⟨hu, hcl, hfo, _⟩ :=
    findLoop_frames (realSize t + 1) t i [] _ fs hok CleanFrames_nil FramesOk_nil hfind
  simp only [fsBefore, fsAfter, List.append_nil] at hA hB
  exact ⟨sz, l, d, r, fs, hfind, hA, hB, hC, hcl, hfo, hu⟩

theorem findNode_plug {t : STree α} {i : Nat} {u : STree α} {fs : List (Frame α)}
    (h : findNode? t i = some (u, fs)) :
    seq (plug u fs) = seq t ∧ sizeOk (plug u fs) = sizeOk t := by
  have := findLoop_plug (realSize t + 1) t i [] u fs h
  simpa [plug] using this

theorem atIdx_spec (t : STree α) (i : Nat) (hok : sizeOk t = true)
    (hi : i < subtreeSize t) :
    ∃ v t2, atIdx t i = .ok (v, t2) ∧
      (seq t).take i ++ v :: (seq t).drop (i + 1) = seq t ∧
      seq t2 = seq t ∧ sizeOk t2 = true := by
  obtain ⟨sz, l, d, r, fs, hfind, hA, hB, hC, hcl, hfo, hu⟩ := findNode_spec t i hok hi
  obtain ⟨sz2, L, R, hsplay, hL, hR⟩ := splayGo_spec fs sz l d r hcl
  refine ⟨d, .node sz2 false L d R, ?_, hC, ?_, ?_⟩
  · rw [atIdx, if_neg (by omega)]
    simp only [hfind, hsplay]
  · rw [show seq (STree.node sz2 false L d R) = seq L ++ d :: seq R from by simp [seq]]
    rw [hL, hR, hA, hB]
    exact hC
  · rw [← hsplay]
    exact splayGo_sizeOk fs _ hu hfo

theorem splitI_spec (t : STree α) (it : Option Nat) (hok : sizeOk t = true)
    (hr : iterRank t it ≤ subtreeSize t) :
    ∃ lt rt, splitI t it = some (lt, rt) ∧
      seq lt = (seq t).take (iterRank t it) ∧ seq rt = (seq t).drop (iterRank t it) ∧
      sizeOk lt = true ∧ sizeOk rt = true ∧
      (lt = .nil ∨ ∃ szl Ll dl, lt = .node szl false Ll dl .nil) := by
  by_cases hr0 : iterRank t it = 0
  · refine ⟨.nil, t, ?_, ?_, ?_, rfl, hok, Or.inl rfl⟩
    · simp only [splitI, if_pos hr0]
    · rw [hr0]
      simp [seq]
    · rw [hr0]
      simp
  · obtain ⟨sz, l, d, r, fs, hfind, hA, hB, hC, hcl, hfo, hu⟩ :=
      findNode_spec t (iterRank t it - 1) hok (by omega)
    obtain ⟨sz2, L, R, hsplay, hL, hR⟩ := splayGo_spec fs sz l d r hcl
    have hok2 : sizeOk (STree.node sz2 false L d R) = true := by
      rw [← hsplay]
      exact splayGo_sizeOk fs _ hu hfo
    simp only [sizeOk, Bool.and_eq_true, beq_iff_eq] at hok2
    obtain ⟨⟨_, hokL⟩, hokR⟩ := hok2
    have hlen : (seq t).length = subtreeSize t := length_seq hok
    have hLtake : seq L = (seq t).take (iterRank t it - 1) := by
      rw [hL, hA]
    refine ⟨.node (1 + subtreeSize L) false L d .nil, R, ?_, ?_, ?_, ?_, hokR, ?_⟩
    · simp only [splitI, if_neg hr0]
      simp only [hfind, hsplay]
    · rw [show seq (STree.node (1 + subtreeSize L) false L d STree.nil)
          = seq L ++ [d] from by simp [seq]]
      rw [hLtake]
      have hr1 : iterRank t it - 1 + 1 = iterRank t it := by omega
      conv_rhs => rw [← hr1, ← hC]
      rw [take_mid_succ _ _ _ _ (by simp [List.length_take]; omega)]
    · rw [hR, hB]
      congr 1
      omega
    · simp [sizeOk, subtreeSize, hokL]
    · exact Or.inr ⟨_, L, d, rfl⟩

theorem splitRank_spec (t : STree α) (ls : Nat) (hok : sizeOk t = true)
    (hls : ls < subtreeSize t) :
    ∃ lt rt, splitRank t ls = some (lt, rt) ∧ seq lt = (seq t).take ls ∧
      seq rt = (seq t).drop ls ∧ sizeOk lt = true ∧ sizeOk rt = true ∧
      (lt = .nil ∨ ∃ szl Ll dl, lt = .node szl false Ll dl .nil) := by
  obtain ⟨sz, l, d, r, fs, hfind, _, _, _, _, _, _⟩ := findNode_spec t ls hok hls
  obtain ⟨hPseq, hPok⟩ := findNode_plug hfind
  rw [hok] at hPok
  have hPlen : subtreeSize (plug (STree.node sz false l d r) fs) = subtreeSize t := by
    rw [← length_seq hPok, hPseq, length_seq hok]
  obtain ⟨lt, rt, heq, h1, h2, h3, h4, h5⟩ :=
    splitI_spec (plug (.node sz false l d r) fs) (some ls) hPok
      (by simp [iterRank, hPlen]; omega)
  refine ⟨lt, rt, ?_, ?_, ?_, h3, h4, h5⟩
  · rw [splitRank]
    simp only [hfind]
    exact heq
  · rw [h1, hPseq]
    rfl
  · rw [h2, hPseq]
    rfl

theorem mergeFull_spec (t rhs : STree α) (hok1 : sizeOk t = true)
    (hok2 : sizeOk rhs = true) :
    ∃ m, mergeFull t rhs = some (m, .nil) ∧ seq m = seq t ++ seq rhs ∧ sizeOk m = true ∧
      (rhs = .nil → m = t) ∧
      (t ≠ .nil → rhs ≠ .nil →
        ∃ szm L D, m = .node szm false L D rhs ∧ seq L ++ [D] = seq t) := by
  cases t with
  | nil =>
    refine ⟨rhs, rfl, by simp [seq], hok2, ?_, ?_⟩
    · intro h
      rw [h]
    · intro h
      exact absurd rfl h
  | node ts tv tl td tr =>
    cases rhs with
    | nil =>
      refine ⟨.node ts tv tl td tr, rfl, by simp [seq], hok1, fun _ => rfl, ?_⟩
      intro _ h
      exact absurd rfl h
    | node bs bv bl bd br =>
      have hnz : 0 < subtreeSize (STree.node ts tv tl td tr) := by
        simp only [sizeOk, Bool.and_eq_true, beq_iff_eq] at hok1
        simp [subtreeSize, hok1.1.1]
      obtain ⟨sz, l, d, r, fs, hfind, hA, hB, hC, hcl, hfo, hu⟩ :=
        findNode_spec (.node ts tv tl td tr) (subtreeSize (STree.node ts tv tl td tr) - 1)
          hok1 (by omega)
      obtain ⟨sz2, L, R, hsplay, hL, hR⟩ := splayGo_spec fs sz l d r hcl
      have hok3 : sizeOk (STree.node sz2 false L d R) = true := by
        rw [← hsplay]
        exact splayGo_sizeOk fs _ hu hfo
      simp only [sizeOk, Bool.and_eq_true, beq_iff_eq] at hok3
      obtain ⟨⟨_, hokL⟩, hokR⟩ := hok3
      have hlen : (seq (STree.node ts tv tl td tr)).length
          = subtreeSize (STree.node ts tv tl td tr) := length_seq hok1
      have hdrop : (seq (STree.node ts tv tl td tr)).drop
          ((subtreeSize (STree.node ts tv tl td tr) - 1) + 1) = [] := by
        rw [show (subtreeSize (STree.node ts tv tl td tr) - 1) + 1
            = (seq (STree.node ts tv tl td tr)).length from by omega]
        exact List.drop_length _
      have hCC := hC
      rw [hdrop] at hCC
      have hLeq : seq L ++ [d] = seq (STree.node ts tv tl td tr) := by
        rw [hL, hA]
        exact hCC
      refine ⟨.node (1 + subtreeSize L + subtreeSize (STree.node bs bv bl bd br)) false L d
        (.node bs bv bl bd br), ?_, ?_, ?_, ?_, ?_⟩
      · simp only [mergeFull, hfind, hsplay]
      · rw [show seq (STree.node (1 + subtreeSize L +
            subtreeSize (STree.node bs bv bl bd br)) false L d (STree.node bs bv bl bd br))
            = seq L ++ d :: seq (STree.node bs bv bl bd br) from by simp [seq]]
        rw [← hLeq]
        simp
      · simp only [sizeOk, Bool.and_eq_true, beq_iff_eq] at hok2 ⊢
        exact ⟨⟨trivial, hokL⟩, hok2⟩
      · intro h
        exact absurd h (by simp)
      · intro _ _
        exact ⟨_, L, d, rfl, hLeq⟩

theorem findNode_ok {t : STree α} {i : Nat} {u : STree α} {fs : List (Frame α)}
    (hok : sizeOk t = true) (h : findNode? t i = some (u, fs)) :
    sizeOk u = true ∧ CleanFrames fs ∧ FramesOk fs := by
  obtain ⟨h1, h2, h3, _⟩ :=
    findLoop_frames (realSize t + 1) t i [] u fs hok CleanFrames_nil FramesOk_nil h
  exact ⟨h1, h2, h3⟩

theorem atIdx_ok {t : STree α} {i : Nat} {v : α} {t2 : STree α} (hok : sizeOk t = true)
    (h : atIdx t i = .ok (v, t2)) : sizeOk t2 = true := by
  rw [atIdx] at h
  split at h
  · exact absurd h (by simp)
  · rcases hf : findNode? t i with _ | ⟨u, fs⟩
    · simp only [hf] at h
      exact absurd h (by simp)
    · simp only [hf] at h
      obtain ⟨hu, hcl, hfo⟩ := findNode_ok hok hf
      have hs := splayGo_sizeOk fs u hu hfo
      rcases hsp : splayGo u fs with _ | ⟨sz, rv, l, d, r⟩
      · simp only [hsp] at h
        exact absurd h (by simp)
      · simp only [hsp] at h
        simp only [Except.ok.injEq, Prod.mk.injEq] at h
        rw [← h.2, ← hsp]
        exact hs

theorem splitI_ok {t : STree α} {it : Option Nat} {lt rt : STree α}
    (hok : sizeOk t = true) (h : splitI t it = some (lt, rt)) :
    sizeOk lt = true ∧ sizeOk rt = true := by
  simp only [splitI] at h
  by_cases hr0 : iterRank t it = 0
  · rw [if_pos hr0] at h
    simp only [Option.some.injEq, Prod.mk.injEq] at h
    rw [← h.1, ← h.2]
    exact ⟨rfl, hok⟩
  · rw [if_neg hr0] at h
    rcases hf : findNode? t (iterRank t it - 1) with _ | ⟨u, fs⟩
    · simp only [hf] at h
      exact absurd h (by simp)
    · simp only [hf] at h
      obtain ⟨hu, hcl, hfo⟩ := findNode_ok hok hf
      have hs := splayGo_sizeOk fs u hu hfo
      rcases hsp : splayGo u fs with _ | ⟨sz, rv, l, d, rr⟩
      · simp only [hsp] at h
        exact absurd h (by simp)
      · simp only [hsp] at h
        rw [hsp] at hs
        simp only [sizeOk, Bool.and_eq_true, beq_iff_eq] at hs
        simp only [Option.some.injEq, Prod.mk.injEq] at h
        rw [← h.1, ← h.2]
        refine ⟨?_, hs.2⟩
        simp [sizeOk, subtreeSize, hs.1.2]

theorem splitRank_ok {t : STree α} {ls : Nat} {lt rt : STree α}
    (hok : sizeOk t = true) (h : splitRank t ls = some (lt, rt)) :
    sizeOk lt = true ∧ sizeOk rt = true := by
  rw [splitRank] at h
  rcases hf : findNode? t ls with _ | ⟨u, fs⟩
  · simp only [hf] at h
    exact absurd h (by simp)
  · simp only [hf] at h
    have hP : sizeOk (plug u fs) = true := by
      rw [(findNode_plug hf).2]
      exact hok
    exact splitI_ok hP h

theorem mergeFull_ok {t rhs m r2 : STree α} (h1 : sizeOk t = true) (h2 : sizeOk rhs = true)
    (h : mergeFull t rhs = some (m, r2)) : sizeOk m = true := by
  obtain ⟨m2, heq, _, hok, _, _⟩ := mergeFull_spec t rhs h1 h2
  rw [heq] at h
  simp only [Option.some.injEq, Prod.mk.injEq] at h
  rw [← h.1]
  exact hok

theorem framesTo_ok :
    ∀ (p : List Bool) (t : STree α) (u : STree α) (fs : List (Frame α)),
      sizeOk t = true → framesTo t p = some (u, fs) →
      sizeOk u = true ∧ FramesOk fs
  | [], t, u, fs => by
    intro hok h
    simp only [framesTo, Option.some.injEq, Prod.mk.injEq] at h
    rw [← h.1, ← h.2]
    exact ⟨hok, FramesOk_nil⟩
  | b :: p, .nil, u, fs => by
    intro _ h
    simp [framesTo] at h
  | b :: p, .node sz rev l d r, u, fs => by
    intro hok h
    simp only [sizeOk, Bool.and_eq_true, beq_iff_eq] at hok
    obtain ⟨⟨_, hl⟩, hr⟩ := hok
    cases b
    · simp only [framesTo] at h
      rcases hf : framesTo l p with _ | ⟨u0, fs0⟩
      · simp only [hf] at h
        exact absurd h (by simp)
      · simp only [hf, Option.map_some', Option.some.injEq, Prod.mk.injEq] at h
        obtain ⟨ha, hb⟩ := framesTo_ok p l _ _ hl hf
        obtain ⟨hu2, hfs2⟩ := h
        subst hu2
        subst hfs2
        refine ⟨ha, ?_⟩
        intro f hf2
        rcases List.mem_append.mp hf2 with hf2 | hf2
        · exact hb f hf2
        · simp at hf2
          rw [hf2]
          exact hr
    · simp only [framesTo] at h
      rcases hf : framesTo r p with _ | ⟨u0, fs0⟩
      · simp only [hf] at h
        exact absurd h (by simp)
      · simp only [hf, Option.map_some', Option.some.injEq, Prod.mk.injEq] at h
        obtain ⟨ha, hb⟩ := framesTo_ok p r _ _ hr hf
        obtain ⟨hu2, hfs2⟩ := h
        subst hu2
        subst hfs2
        refine ⟨ha, ?_⟩
        intro f hf2
        rcases List.mem_append.mp hf2 with hf2 | hf2
        · exact hb f hf2
        · simp at hf2
          rw [hf2]
          exact hl

theorem attachSplay_ok {t : STree α} {q : List Bool} {side : Bool} {v : α} {t2 : STree α}
    (hok : sizeOk t = true) (h : attachSplay t q side v = some t2) :
    sizeOk t2 = true := by
  rw [attachSplay] at h
  rcases hf : framesTo t q with _ | ⟨u, fs⟩
  · simp only [hf] at h
    exact absurd h (by simp)
  · simp only [hf] at h
    obtain ⟨hu, hfo⟩ := framesTo_ok q t _ _ hok hf
    cases u with
    | nil => exact absurd h (by simp)
    | node sz rev l d r =>
      simp only [sizeOk, Bool.and_eq_true, beq_iff_eq] at hu
      obtain ⟨⟨_, hl⟩, hr⟩ := hu
      simp only [Option.some.injEq] at h
      rw [← h]
      apply splayGo_sizeOk
      · simp [sizeOk, subtreeSize]
      · intro f hf2
        rcases List.mem_cons.mp hf2 with hf2 | hf2
        · rw [hf2]
          cases side <;> simp [hl, hr]
        · exact hfo f hf2

theorem insertF_ok {t : STree α} {it : Option (List Bool)} {v : α} {t2 : STree α}
    (hok : sizeOk t = true) (h : insertF t it v = some t2) : sizeOk t2 = true := by
  rcases it with _ | p
  · cases t with
    | nil =>
      simp only [insertF, Option.some.injEq] at h
      rw [← h]
      simp [sizeOk, subtreeSize]
    | node a b c d e =>
      simp only [insertF] at h
      exact attachSplay_ok hok h
  · simp only [insertF] at h
    rcases hf : framesTo t p with _ | ⟨u, fs⟩
    · simp only [hf] at h
      exact absurd h (by simp)
    · simp only [hf] at h
      cases u with
      | nil => exact absurd h (by simp)
      | node sz rev l d r =>
        cases l with
        | nil => exact attachSplay_ok hok h
        | node a b c dd e => exact attachSplay_ok hok h

theorem sizeOk_reverseTree (t : STree α) : sizeOk (reverseTree t) = sizeOk t := by
  cases t <;> rfl

theorem seq_reverseTree (t : STree α) : seq (reverseTree t) = (seq t).reverse := by
  have : reverseTree t = flipRev t := by cases t <;> rfl
  rw [this, seq_flipRev]

theorem eraseRange_ok {t : STree α} {first last : Option Nat} {m : STree α} {ret : Option Nat}
    (hok : sizeOk t = true) (h : eraseRange t first last = some (m, ret)) :
    sizeOk m = true := by
  simp only [eraseRange] at h
  rcases h1 : splitI t last with _ | ⟨t1, right⟩
  · simp only [h1] at h
    exact absurd h (by simp)
  · simp only [h1] at h
    obtain ⟨hok1, hokr⟩ := splitI_ok hok h1
    have hstep : ∀ t2 mid, (if first = last ∧ first ≠ none then some (STree.nil, t1)
        else splitI t1 first) = some (t2, mid) → sizeOk t2 = true := by
      intro t2 mid hs
      by_cases hc : first = last ∧ first ≠ none
      · rw [if_pos hc] at hs
        simp only [Option.some.injEq, Prod.mk.injEq] at hs
        rw [← hs.1]
        rfl
      · rw [if_neg hc] at hs
        exact (splitI_ok hok1 hs).1
    rcases h2 : (if first = last ∧ first ≠ none then some (STree.nil, t1)
        else splitI t1 first) with _ | ⟨t2, mid⟩
    · simp only [h2] at h
      exact absurd h (by simp)
    · simp only [h2] at h
      rcases h3 : mergeFull t2 right with _ | ⟨m2, r2⟩
      · simp only [h3] at h
        exact absurd h (by simp)
      · simp only [h3] at h
        simp only [Option.some.injEq, Prod.mk.injEq] at h
        rw [← h.1]
        exact mergeFull_ok (hstep t2 mid h2) hokr h3

theorem eraseOne_ok {t : STree α} {it : Option Nat} {m : STree α} {ret : Option Nat}
    (hok : sizeOk t = true) (h : eraseOne t it = .ok (m, ret)) : sizeOk m = true := by
  rcases it with _ | r
  · simp [eraseOne] at h
  · simp only [eraseOne] at h
    rcases he : eraseRange t (some r) (if r + 1 < subtreeSize t then some (r + 1) else none)
      with _ | ⟨m2, r2⟩
    · simp only [he] at h
      exact absurd h (by simp)
    · simp only [he] at h
      simp only [Except.ok.injEq, Prod.mk.injEq] at h
      rw [← h.1]
      exact eraseRange_ok hok he

theorem reverseF_ok {t : STree α} {first last : Nat} {t2 : STree α}
    (hok : sizeOk t = true) (h : reverseF t first last = .ok t2) : sizeOk t2 = true := by
  rw [reverseF] at h
  split at h
  · simp only [Except.ok.injEq] at h
    rw [← h, sizeOk_reverseTree]
    exact hok
  · split at h
    · exact absurd h (by simp)
    · split at h
      · exact absurd h (by simp)
      · rcases h1 : splitRank t last with _ | ⟨t1, right⟩
        · simp only [h1] at h
          exact absurd h (by simp)
        · simp only [h1] at h
          obtain ⟨hok1, hokr⟩ := splitRank_ok hok h1
          rcases h2 : splitRank t1 first with _ | ⟨t2a, center⟩
          · simp only [h2] at h
            exact absurd h (by simp)
          · simp only [h2] at h
            obtain ⟨hok2, hokc⟩ := splitRank_ok hok1 h2
            rcases h3 : mergeFull t2a (reverseTree center) with _ | ⟨m1, r1⟩
            · simp only [h3] at h
              exact absurd h (by simp)
            · simp only [h3] at h
              have hokm1 : sizeOk m1 = true :=
                mergeFull_ok hok2 (by rw [sizeOk_reverseTree]; exact hokc) h3
              rcases h4 : mergeFull m1 right with _ | ⟨m2, r2⟩
              · simp only [h4] at h
                exact absurd h (by simp)
              · simp only [h4] at h
                simp only [Except.ok.injEq] at h
                rw [← h]
                exact mergeFull_ok hokm1 hokr h4

theorem subtreeSize_pushAt (p : List Bool) (t : STree α) :
    subtreeSize (pushAt t p) = subtreeSize t := by
  cases p with
  | nil => simp [pushAt, subtreeSize_push]
  | cons b p =>
    cases t with
    | nil => simp [pushAt]
    | node sz rev l d r => cases b <;> simp [pushAt, subtreeSize]

theorem pushAt_ok (p : List Bool) (t : STree α) (h : sizeOk t = true) :
    sizeOk (pushAt t p) = true := by
  induction p generalizing t with
  | nil =>
    rw [show pushAt t [] = push t from by simp [pushAt], sizeOk_push]
    exact h
  | cons b p ih =>
    cases t with
    | nil => simpa [pushAt] using h
    | node sz rev l d r =>
      simp only [sizeOk, Bool.and_eq_true, beq_iff_eq] at h
      obtain ⟨⟨hsz, hl⟩, hr⟩ := h
      cases b
      · simp only [pushAt, sizeOk, Bool.and_eq_true, beq_iff_eq]
        exact ⟨⟨by rw [subtreeSize_pushAt]; exact hsz, ih l hl⟩, hr⟩
      · simp only [pushAt, sizeOk, Bool.and_eq_true, beq_iff_eq]
        exact ⟨⟨by rw [subtreeSize_pushAt]; exact hsz, hl⟩, ih r hr⟩

theorem buildTreeF_ok :
    ∀ (fuel : Nat) (xs : List α), sizeOk (buildTreeF fuel xs) = true
  | fuel, [] => by simp [buildTreeF, sizeOk]
  | fuel, [x] => by simp [buildTreeF, sizeOk, subtreeSize]
  | 0, x :: y :: rest => by simp [buildTreeF, sizeOk]
  | fuel + 1, x :: y :: rest => by
    simp only [buildTreeF, sizeOk_mkSz, Bool.and_eq_true]
    exact ⟨buildTreeF_ok fuel _, buildTreeF_ok fuel _⟩

theorem buildTree_ok (xs : List α) : sizeOk (buildTree xs) = true :=
  buildTreeF_ok xs.length xs

theorem push_nil_iff {t : STree α} : push t = .nil ↔ t = .nil := by
  cases t with
  | nil => simp [push]
  | node sz rev l d r => cases rev <;> simp [push]

theorem descRightF_ok :
    ∀ (fuel : Nat) (t : STree α), sizeOk t = true →
      sizeOk (descRightF fuel t).1 = true ∧
        subtreeSize (descRightF fuel t).1 = subtreeSize t
  | 0, t => fun h => ⟨h, rfl⟩
  | fuel + 1, t => by
    intro h
    rcases hp : push t with _ | ⟨sz, rv, l, d, r⟩
    · rw [push_nil_iff] at hp
      subst hp
      exact ⟨rfl, rfl⟩
    · have hok2 : sizeOk (STree.node sz rv l d r) = true := by
        rw [← hp, sizeOk_push]; exact h
      have hsz2 : subtreeSize (STree.node sz rv l d r) = subtreeSize t := by
        rw [← hp, subtreeSize_push]
      simp only [sizeOk, Bool.and_eq_true, beq_iff_eq] at hok2
      obtain ⟨⟨hsz, hl⟩, hr⟩ := hok2
      cases r with
      | nil =>
        simp only [descRightF, hp]
        refine ⟨?_, hsz2⟩
        simp only [sizeOk, Bool.and_eq_true, beq_iff_eq]
        exact ⟨⟨hsz, hl⟩, trivial⟩
      | node a b c dd e =>
        obtain ⟨ih1, ih2⟩ := descRightF_ok fuel (.node a b c dd e) hr
        simp only [descRightF, hp]
        refine ⟨?_, hsz2⟩
        simp only [sizeOk, Bool.and_eq_true, beq_iff_eq]
        exact ⟨⟨by rw [ih2]; exact hsz, hl⟩, ih1⟩

theorem descLeftF_ok :
    ∀ (fuel : Nat) (t : STree α), sizeOk t = true →
      sizeOk (descLeftF fuel t).1 = true ∧
        subtreeSize (descLeftF fuel t).1 = subtreeSize t
  | 0, t => fun h => ⟨h, rfl⟩
  | fuel + 1, t => by
    intro h
    rcases hp : push t with _ | ⟨sz, rv, l, d, r⟩
    · rw [push_nil_iff] at hp
      subst hp
      exact ⟨rfl, rfl⟩
    · have hok2 : sizeOk (STree.node sz rv l d r) = true := by
        rw [← hp, sizeOk_push]; exact h
      have hsz2 : subtreeSize (STree.node sz rv l d r) = subtreeSize t := by
        rw [← hp, subtreeSize_push]
      simp only [sizeOk, Bool.and_eq_true, beq_iff_eq] at hok2
      obtain ⟨⟨hsz, hl⟩, hr⟩ := hok2
      cases l with
      | nil =>
        simp only [descLeftF, hp]
        refine ⟨?_, hsz2⟩
        simp only [sizeOk, Bool.and_eq_true, beq_iff_eq]
        exact ⟨⟨hsz, trivial⟩, hr⟩
      | node a b c dd e =>
        obtain ⟨ih1, ih2⟩ := descLeftF_ok fuel (.node a b c dd e) hl
        simp only [descLeftF, hp]
        refine ⟨?_, hsz2⟩
        simp only [sizeOk, Bool.and_eq_true, beq_iff_eq]
        exact ⟨⟨by rw [ih2]; exact hsz, ih1⟩, hr⟩

theorem decGo_ok :
    ∀ (p : List Bool) (t t1 : STree α) (oq : Option (List Bool)),
      sizeOk t = true → decGo t p = some (t1, oq) →
      sizeOk t1 = true ∧ subtreeSize t1 = subtreeSize t
  | [], t, t1, oq => by
    intro h hg
    rcases hp : push t with _ | ⟨sz, rv, l, d, r⟩
    · simp [decGo, hp] at hg
    · have hok2 : sizeOk (STree.node sz rv l d r) = true := by
        rw [← hp, sizeOk_push]; exact h
      have hsz2 : subtreeSize (STree.node sz rv l d r) = subtreeSize t := by
        rw [← hp, subtreeSize_push]
      simp only [sizeOk, Bool.and_eq_true, beq_iff_eq] at hok2
      obtain ⟨⟨hsz, hl⟩, hr⟩ := hok2
      cases l with
      | nil =>
        simp only [decGo, hp, Option.some.injEq, Prod.mk.injEq] at hg
        rw [← hg.1]
        refine ⟨?_, hsz2⟩
        simp only [sizeOk, Bool.and_eq_true, beq_iff_eq]
        exact ⟨⟨hsz, trivial⟩, hr⟩
      | node a b c dd e =>
        obtain ⟨ih1, ih2⟩ :=
          descRightF_ok (realSize (STree.node a b c dd e) + 1) (.node a b c dd e) hl
        simp only [decGo, hp, Option.some.injEq, Prod.mk.injEq] at hg
        rw [← hg.1]
        refine ⟨?_, hsz2⟩
        simp only [sizeOk, Bool.and_eq_true, beq_iff_eq]
        exact ⟨⟨by rw [ih2]; exact hsz, ih1⟩, hr⟩
  | b :: p, .nil, t1, oq => by
    intro h hg
    simp [decGo] at hg
  | b :: p, .node sz rev l d r, t1, oq => by
    intro h hg
    simp only [sizeOk, Bool.and_eq_true, beq_iff_eq] at h
    obtain ⟨⟨hsz, hl⟩, hr⟩ := h
    cases b
    · simp only [decGo] at hg
      rcases hd : decGo l p with _ | ⟨x1, x2⟩
      · simp [hd] at hg
      · simp only [hd, Option.map_some', Option.some.injEq, Prod.mk.injEq] at hg
        obtain ⟨ihok, ihsz⟩ := decGo_ok p l x1 x2 hl hd
        rw [← hg.1]
        refine ⟨?_, rfl⟩
        simp only [sizeOk, Bool.and_eq_true, beq_iff_eq]
        exact ⟨⟨by rw [ihsz]; exact hsz, ihok⟩, hr⟩
    · simp only [decGo] at hg
      rcases hd : decGo r p with _ | ⟨x1, x2⟩
      · simp [hd] at hg
      · simp only [hd, Option.map_some', Option.some.injEq, Prod.mk.injEq] at hg
        obtain ⟨ihok, ihsz⟩ := decGo_ok p r x1 x2 hr hd
        rw [← hg.1]
        refine ⟨?_, rfl⟩
        simp only [sizeOk, Bool.and_eq_true, beq_iff_eq]
        exact ⟨⟨by rw [ihsz]; exact hsz, hl⟩, ihok⟩

theorem incGo_ok :
    ∀ (p : List Bool) (t t1 : STree α) (oq : Option (List Bool)),
      sizeOk t = true → incGo t p = some (t1, oq) →
      sizeOk t1 = true ∧ subtreeSize t1 = subtreeSize t
  | [], t, t1, oq => by
    intro h hg
    rcases hp : push t with _ | ⟨sz, rv, l, d, r⟩
    · simp [incGo, hp] at hg
    · have hok2 : sizeOk (STree.node sz rv l d r) = true := by
        rw [← hp, sizeOk_push]; exact h
      have hsz2 : subtreeSize (STree.node sz rv l d r) = subtreeSize t := by
        rw [← hp, subtreeSize_push]
      simp only [sizeOk, Bool.and_eq_true, beq_iff_eq] at hok2
      obtain ⟨⟨hsz, hl⟩, hr⟩ := hok2
      cases r with
      | nil =>
        simp only [incGo, hp, Option.some.injEq, Prod.mk.injEq] at hg
        rw [← hg.1]
        refine ⟨?_, hsz2⟩
        simp only [sizeOk, Bool.and_eq_true, beq_iff_eq]
        exact ⟨⟨hsz, hl⟩, trivial⟩
      | node a b c dd e =>
        obtain ⟨ih1, ih2⟩ :=
          descLeftF_ok (realSize (STree.node a b c dd e) + 1) (.node a b c dd e) hr
        simp only [incGo, hp, Option.some.injEq, Prod.mk.injEq] at hg
        rw [← hg.1]
        refine ⟨?_, hsz2⟩
        simp only [sizeOk, Bool.and_eq_true, beq_iff_eq]
        exact ⟨⟨by rw [ih2]; exact hsz, hl⟩, ih1⟩
  | b :: p, .nil, t1, oq => by
    intro h hg
    simp [incGo] at hg
  | b :: p, .node sz rev l d r, t1, oq => by
    intro h hg
    simp only [sizeOk, Bool.and_eq_true, beq_iff_eq] at h
    obtain ⟨⟨hsz, hl⟩, hr⟩ := h
    cases b
    · simp only [incGo] at hg
      rcases hd : incGo l p with _ | ⟨x1, x2⟩
      · simp [hd] at hg
      · simp only [hd, Option.map_some', Option.some.injEq, Prod.mk.injEq] at hg
        obtain ⟨ihok, ihsz⟩ := incGo_ok p l x1 x2 hl hd
        rw [← hg.1]
        refine ⟨?_, rfl⟩
        simp only [sizeOk, Bool.and_eq_true, beq_iff_eq]
        exact ⟨⟨by rw [ihsz]; exact hsz, ihok⟩, hr⟩
    · simp only [incGo] at hg
      rcases hd : incGo r p with _ | ⟨x1, x2⟩
      · simp [hd] at hg
      · simp only [hd, Option.map_some', Option.some.injEq, Prod.mk.injEq] at hg
        obtain ⟨ihok, ihsz⟩ := incGo_ok p r x1 x2 hr hd
        rw [← hg.1]
        refine ⟨?_, rfl⟩
        simp only [sizeOk, Bool.and_eq_true, beq_iff_eq]
        exact ⟨⟨by rw [ihsz]; exact hsz, hl⟩, ihok⟩

theorem decWalk_ok {t : STree α} {it : Option (List Bool)} {t1 : STree α}
    {oq : Option (List Bool)} (h : sizeOk t = true)
    (hw : decWalk t it = some (t1, oq)) : sizeOk t1 = true := by
  rcases it with _ | p
  · cases t with
    | nil =>
      simp only [decWalk, Option.some.injEq, Prod.mk.injEq] at hw
      rw [← hw.1]
      rfl
    | node a b c d e =>
      simp only [decWalk, Option.some.injEq, Prod.mk.injEq] at hw
      rw [← hw.1]
      exact (descRightF_ok _ _ h).1
  · rcases hd : decGo t p with _ | ⟨x1, x2⟩
    · simp [decWalk, hd] at hw
    · have hx := (decGo_ok p t x1 x2 h hd).1
      cases x2 with
      | none =>
        simp only [decWalk, hd, Option.some.injEq, Prod.mk.injEq] at hw
        rw [← hw.1]
        exact hx
      | some q =>
        simp only [decWalk, hd, Option.some.injEq, Prod.mk.injEq] at hw
        rw [← hw.1]
        exact hx

theorem incWalk_ok {t : STree α} {p : List Bool} {t1 : STree α}
    {oq : Option (List Bool)} (h : sizeOk t = true)
    (hw : incWalk t p = some (t1, oq)) : sizeOk t1 = true := by
  rcases hd : incGo t p with _ | ⟨x1, x2⟩
  · simp [incWalk, hd] at hw
  · have hx := (incGo_ok p t x1 x2 h hd).1
    cases x2 with
    | none =>
      simp only [incWalk, hd, Option.some.injEq, Prod.mk.injEq] at hw
      rw [← hw.1]
      exact hx
    | some q =>
      simp only [incWalk, hd, Option.some.injEq, Prod.mk.injEq] at hw
      rw [← hw.1]
      exact hx

theorem splitItP_ok {t : STree α} {it : Option (List Bool)} {a b : STree α}
    (hok : sizeOk t = true) (h : splitItP t it = some (a, b)) :
    sizeOk a = true ∧ sizeOk b = true := by
  rcases hw : decWalk t it with _ | ⟨t1, oq⟩
  · simp [splitItP, hw] at h
  · have ht1 : sizeOk t1 = true := decWalk_ok hok hw
    cases oq with
    | none =>
      simp only [splitItP, hw, Option.some.injEq, Prod.mk.injEq] at h
      rw [← h.1, ← h.2]
      exact ⟨rfl, ht1⟩
    | some q =>
      rcases hf : framesTo t1 q with _ | ⟨u, fs⟩
      · simp [splitItP, hw, hf] at h
      · cases u with
        | nil => simp [splitItP, hw, hf] at h
        | node sz rv l d r =>
          simp only [splitItP, hw, hf] at h
          obtain ⟨hu, hfs⟩ := framesTo_ok q t1 _ _ ht1 hf
          have hsp : sizeOk (splayGo (STree.node sz rv l d r) fs) = true :=
            splayGo_sizeOk fs _ hu hfs
          rcases hg : splayGo (STree.node sz rv l d r) fs with _ | ⟨sz2, rv2, l2, d2, r2⟩
          · simp [hg] at h
          · simp only [hg, Option.some.injEq, Prod.mk.injEq] at h
            rw [hg] at hsp
            simp only [sizeOk, Bool.and_eq_true, beq_iff_eq] at hsp
            obtain ⟨⟨_, hl2⟩, hr2⟩ := hsp
            rw [← h.1, ← h.2]
            refine ⟨?_, hr2⟩
            simp only [sizeOk, Bool.and_eq_true, beq_iff_eq]
            refine ⟨⟨?_, hl2⟩, trivial⟩
            simp [subtreeSize]

theorem eraseRangeP_ok {t : STree α} {last first2 : Option (List Bool)} {m : STree α}
    (hok : sizeOk t = true) (h : eraseRangeP t last first2 = some m) :
    sizeOk m = true := by
  rcases h1 : splitItP t last with _ | ⟨t1, right⟩
  · simp [eraseRangeP, h1] at h
  · simp only [eraseRangeP, h1] at h
    obtain ⟨ht1, hright⟩ := splitItP_ok hok h1
    rcases h2 : splitItP t1 first2 with _ | ⟨t2, mid⟩
    · simp [h2] at h
    · simp only [h2] at h
      obtain ⟨ht2, _⟩ := splitItP_ok ht1 h2
      rcases h3 : mergeFull t2 right with _ | ⟨m2, r2⟩
      · simp [h3] at h
      · simp only [h3, Option.map_some', Option.some.injEq] at h
        rw [← h]
        exact mergeFull_ok ht2 hright h3

theorem eraseOneP_ok {t : STree α} {pos first2 : Option (List Bool)} {m : STree α}
    (hok : sizeOk t = true) (h : eraseOneP t pos first2 = .ok m) :
    sizeOk m = true := by
  rcases pos with _ | p
  · simp [eraseOneP] at h
  · rcases h1 : incWalk t p with _ | ⟨t1, nxt⟩
    · simp [eraseOneP, h1] at h
    · simp only [eraseOneP, h1] at h
      have ht1 : sizeOk t1 = true := incWalk_ok hok h1
      rcases h2 : eraseRangeP t1 nxt first2 with _ | m2
      · simp [h2] at h
      · simp only [h2, Except.ok.injEq] at h
        rw [← h]
        exact eraseRangeP_ok ht1 h2

theorem applyOp_ok (op : Op α) (t t2 : STree α) (hok : sizeOk t = true)
    (hop : (match op with
      | Op.opMerge rhs => sizeOk rhs
      | Op.opSwap rhs => sizeOk rhs
      | _ => true) = true)
    (h : applyOp op t = some t2) :
    sizeOk t2 = true := by
  cases op with
  | opAt i =>
    simp only [applyOp] at h
    rcases ha : atIdx t i with e | ⟨v, t3⟩
    · cases e with
      | outOfRange =>
        simp only [ha, Option.some.injEq] at h
        rw [← h]
        exact hok
      | invalidRange => simp [ha] at h
      | endIncrement => simp [ha] at h
      | ub => simp [ha] at h
    · simp only [ha, Option.some.injEq] at h
      rw [← h]
      exact atIdx_ok hok ha
  | opInsert it v =>
    simp only [applyOp] at h
    exact insertF_ok hok h
  | opEraseOne pos first2 =>
    simp only [applyOp] at h
    rcases he : eraseOneP t pos first2 with e | m
    · cases e with
      | endIncrement =>
        simp only [he, Option.some.injEq] at h
        rw [← h]
        exact hok
      | outOfRange => simp [he] at h
      | invalidRange => simp [he] at h
      | ub => simp [he] at h
    · simp only [he, Option.some.injEq] at h
      rw [← h]
      exact eraseOneP_ok hok he
  | opEraseRange last first2 =>
    simp only [applyOp] at h
    exact eraseRangeP_ok hok h
  | opSplitL i =>
    simp only [applyOp] at h
    rcases hs : splitRank t i with _ | ⟨lt, rt⟩
    · simp [hs] at h
    · simp only [hs, Option.map_some', Option.some.injEq] at h
      rw [← h]
      exact (splitRank_ok hok hs).1
  | opSplitR i =>
    simp only [applyOp] at h
    rcases hs : splitRank t i with _ | ⟨lt, rt⟩
    · simp [hs] at h
    · simp only [hs, Option.map_some', Option.some.injEq] at h
      rw [← h]
      exact (splitRank_ok hok hs).2
  | opSplitIterL it =>
    simp only [applyOp] at h
    rcases hs : splitItP t it with _ | ⟨lt, rt⟩
    · simp [hs] at h
    · simp only [hs, Option.map_some', Option.some.injEq] at h
      rw [← h]
      exact (splitItP_ok hok hs).1
  | opSplitIterR it =>
    simp only [applyOp] at h
    rcases hs : splitItP t it with _ | ⟨lt, rt⟩
    · simp [hs] at h
    · simp only [hs, Option.map_some', Option.some.injEq] at h
      rw [← h]
      exact (splitItP_ok hok hs).2
  | opMerge rhs =>
    simp only [applyOp] at h
    rcases hm : mergeFull t rhs with _ | ⟨m, r2⟩
    · simp [hm] at h
    · simp only [hm, Option.map_some', Option.some.injEq] at h
      rw [← h]
      exact mergeFull_ok hok hop hm
  | opSwap rhs =>
    simp only [applyOp, Option.some.injEq] at h
    rw [← h]
    exact hop
  | opReverse f l =>
    simp only [applyOp] at h
    rcases hr : reverseF t f l with e | t3
    · cases e with
      | outOfRange =>
        simp only [hr, Option.some.injEq] at h
        rw [← h]
        exact hok
      | invalidRange =>
        simp only [hr, Option.some.injEq] at h
        rw [← h]
        exact hok
      | endIncrement =>
        simp only [hr, Option.some.injEq] at h
        rw [← h]
        exact hok
      | ub => simp [hr] at h
    · simp only [hr, Option.some.injEq] at h
      rw [← h]
      exact reverseF_ok hok hr
  | opInc it =>
    simp only [applyOp] at h
    rcases it with _ | p
    · have h2 : some t = some t2 := h
      simp only [Option.some.injEq] at h2
      rw [← h2]
      exact hok
    · rcases hi : incWalk t p with _ | ⟨t1, nxt⟩
      · simp [hi] at h
      · simp only [hi, Option.map_some', Option.some.injEq] at h
        rw [← h]
        exact incWalk_ok hok hi
  | opDec it =>
    simp only [applyOp] at h
    rcases hw : decWalk t it with _ | ⟨t1, oq⟩
    · simp [hw] at h
    · simp only [hw, Option.map_some', Option.some.injEq] at h
      rw [← h]
      exact decWalk_ok hok hw

theorem applyOps_ok :
    ∀ (ops : List (Op α)) (t u : STree α), sizeOk t = true → opsOk ops = true →
      applyOps ops t = some u → sizeOk u = true
  | [], t, u => by
    intro hok _ h
    simp only [applyOps, Option.some.injEq] at h
    rw [← h]
    exact hok
  | op :: ops, t, u => by
    intro hok hops h
    simp only [opsOk, List.all_cons, Bool.and_eq_true] at hops
    rcases ha : applyOp op t with _ | t2
    · simp [applyOps, ha] at h
    · simp only [applyOps, ha] at h
      exact applyOps_ok ops t2 u (applyOp_ok op t t2 hok hops.1 ha)
        (by simp only [opsOk]; exact hops.2) h

theorem clean_node {sz : Nat} {rev : Bool} {l r : STree α} {d : α} :
    clean (.node sz rev l d r) = true ↔ rev = false ∧ clean l = true ∧ clean r = true := by
  simp [clean, Bool.and_eq_true, and_assoc]

theorem framesTo_plug :
    ∀ (p : List Bool) (t u : STree α) (fs : List (Frame α)),
      framesTo t p = some (u, fs) → plug u fs = t
  | [], t, u, fs => by
    intro h
    simp only [framesTo, Option.some.injEq, Prod.mk.injEq] at h
    rw [← h.1, ← h.2]
    rfl
  | b :: p, .nil, u, fs => by
    intro h
    simp [framesTo] at h
  | b :: p, .node sz rev l d r, u, fs => by
    intro h
    cases b
    · simp only [framesTo] at h
      rcases hf : framesTo l p with _ | ⟨u0, fs0⟩
      · simp only [hf] at h
        exact absurd h (by simp)
      · simp only [hf, Option.map_some', Option.some.injEq, Prod.mk.injEq] at h
        obtain ⟨h1, h2⟩ := h
        subst h1
        subst h2
        rw [plug_append, framesTo_plug p l u0 fs0 hf]
        rfl
    · simp only [framesTo] at h
      rcases hf : framesTo r p with _ | ⟨u0, fs0⟩
      · simp only [hf] at h
        exact absurd h (by simp)
      · simp only [hf, Option.map_some', Option.some.injEq, Prod.mk.injEq] at h
        obtain ⟨h1, h2⟩ := h
        subst h1
        subst h2
        rw [plug_append, framesTo_plug p r u0 fs0 hf]
        rfl

theorem framesTo_clean :
    ∀ (p : List Bool) (t u : STree α) (fs : List (Frame α)),
      clean t = true → framesTo t p = some (u, fs) →
      clean u = true ∧ CleanFrames fs
  | [], t, u, fs => by
    intro hcl h
    simp only [framesTo, Option.some.injEq, Prod.mk.injEq] at h
    rw [← h.1, ← h.2]
    exact ⟨hcl, CleanFrames_nil⟩
  | b :: p, .nil, u, fs => by
    intro _ h
    simp [framesTo] at h
  | b :: p, .node sz rev l d r, u, fs => by
    intro hcl h
    simp only [clean, Bool.and_eq_true, Bool.not_eq_eq_eq_not, Bool.not_true] at hcl
    obtain ⟨⟨hrev, hl⟩, hr⟩ := hcl
    cases b
    · simp only [framesTo] at h
      rcases hf : framesTo l p with _ | ⟨u0, fs0⟩
      · simp only [hf] at h
        exact absurd h (by simp)
      · simp only [hf, Option.map_some', Option.some.injEq, Prod.mk.injEq] at h
        obtain ⟨h1, h2⟩ := h
        subst h1
        subst h2
        obtain ⟨ha, hb⟩ := framesTo_clean p l u0 fs0 hl hf
        refine ⟨ha, ?_⟩
        intro f hf2
        rcases List.mem_append.mp hf2 with hf2 | hf2
        · exact hb f hf2
        · simp at hf2
          rw [hf2]
          exact hrev
    · simp only [framesTo] at h
      rcases hf : framesTo r p with _ | ⟨u0, fs0⟩
      · simp only [hf] at h
        exact absurd h (by simp)
      · simp only [hf, Option.map_some', Option.some.injEq, Prod.mk.injEq] at h
        obtain ⟨h1, h2⟩ := h
        subst h1
        subst h2
        obtain ⟨ha, hb⟩ := framesTo_clean p r u0 fs0 hr hf
        refine ⟨ha, ?_⟩
        intro f hf2
        rcases List.mem_append.mp hf2 with hf2 | hf2
        · exact hb f hf2
        · simp at hf2
          rw [hf2]
          exact hrev

theorem framesTo_decomp {p : List Bool} {t u : STree α} {fs : List (Frame α)}
    (hcl : clean t = true) (h : framesTo t p = some (u, fs)) :
    seq t = fsBefore fs ++ seq u ++ fsAfter fs := by
  rw [← framesTo_plug p t u fs h]
  exact seq_plug_clean fs u (framesTo_clean p t u fs hcl h).2

theorem framesTo_rank :
    ∀ (p : List Bool) (t u : STree α) (fs : List (Frame α)),
      clean t = true → framesTo t p = some (u, fs) →
      pathRank t p = (fsBefore fs).length + posInSeq u
  | [], t, u, fs => by
    intro hcl h
    simp only [framesTo, Option.some.injEq, Prod.mk.injEq] at h
    rw [← h.1, ← h.2]
    cases t with
    | nil => simp [pathRank, posInSeq, fsBefore]
    | node sz rev l d r =>
      simp only [clean, Bool.and_eq_true, Bool.not_eq_eq_eq_not, Bool.not_true] at hcl
      rw [hcl.1.1]
      simp [pathRank, posInSeq, fsBefore]
  | b :: p, .nil, u, fs => by
    intro _ h
    simp [framesTo] at h
  | b :: p, .node sz rev l d r, u, fs => by
    intro hcl h
    simp only [clean, Bool.and_eq_true, Bool.not_eq_eq_eq_not, Bool.not_true] at hcl
    obtain ⟨⟨hrev, hl⟩, hr⟩ := hcl
    cases b
    · simp only [framesTo] at h
      rcases hf : framesTo l p with _ | ⟨u0, fs0⟩
      · simp only [hf] at h
        exact absurd h (by simp)
      · simp only [hf, Option.map_some', Option.some.injEq, Prod.mk.injEq] at h
        obtain ⟨h1, h2⟩ := h
        subst h1
        subst h2
        rw [show pathRank (STree.node sz rev l d r) (false :: p) = pathRank l p from rfl]
        rw [framesTo_rank p l u0 fs0 hl hf, fsBefore_append]
        simp [fsBefore]
    · simp only [framesTo] at h
      rcases hf : framesTo r p with _ | ⟨u0, fs0⟩
      · simp only [hf] at h
        exact absurd h (by simp)
      · simp only [hf, Option.map_some', Option.some.injEq, Prod.mk.injEq] at h
        obtain ⟨h1, h2⟩ := h
        subst h1
        subst h2
        rw [show pathRank (STree.node sz rev l d r) (true :: p)
            = (seq l).length + 1 + pathRank r p from rfl]
        rw [framesTo_rank p r u0 fs0 hr hf, fsBefore_append]
        simp [fsBefore]
        omega

theorem framesTo_append :
    ∀ (p q : List Bool) (t : STree α),
      framesTo t (p ++ q) = (framesTo t p).bind
        (fun uf => (framesTo uf.1 q).map (fun wg => (wg.1, wg.2 ++ uf.2)))
  | [], q, t => by
    simp [framesTo]
  | b :: p, q, .nil => by
    simp [framesTo]
  | b :: p, q, .node sz rev l d r => by
    cases b
    · simp only [List.cons_append, framesTo]
      rw [show framesTo l (p.append q) = framesTo l (p ++ q) from rfl, framesTo_append p q l]
      rcases hf : framesTo l p with _ | ⟨u0, fs0⟩
      · simp [hf]
      · simp only [hf, Option.some_bind, Option.map_some']
        rcases hg : framesTo u0 q with _ | ⟨w, gs⟩
        · simp [hg]
        · simp [hg, List.append_assoc]
    · simp only [List.cons_append, framesTo]
      rw [show framesTo r (p.append q) = framesTo r (p ++ q) from rfl, framesTo_append p q r]
      rcases hf : framesTo r p with _ | ⟨u0, fs0⟩
      · simp [hf]
      · simp only [hf, Option.some_bind, Option.map_some']
        rcases hg : framesTo u0 q with _ | ⟨w, gs⟩
        · simp [hg]
        · simp [hg, List.append_assoc]

theorem isNodePath_framesTo :
    ∀ (p : List Bool) (t : STree α), isNodePath t p = true →
      ∃ sz rv l d r fs, framesTo t p = some (.node sz rv l d r, fs)
  | [], .nil => by
    intro h
    simp [isNodePath] at h
  | [], .node sz rv l d r => fun _ => ⟨sz, rv, l, d, r, [], rfl⟩
  | b :: p, .nil => by
    intro h
    simp [isNodePath] at h
  | b :: p, .node sz rv l d r => by
    intro h
    cases b
    · obtain ⟨a1, a2, a3, a4, a5, fs0, hf⟩ :=
        isNodePath_framesTo p l (by simpa [isNodePath] using h)
      exact ⟨a1, a2, a3, a4, a5, fs0 ++ [⟨false, rv, sz, d, r⟩],
        by simp [framesTo, hf]⟩
    · obtain ⟨a1, a2, a3, a4, a5, fs0, hf⟩ :=
        isNodePath_framesTo p r (by simpa [isNodePath] using h)
      exact ⟨a1, a2, a3, a4, a5, fs0 ++ [⟨true, rv, sz, d, l⟩],
        by simp [framesTo, hf]⟩

theorem rightSpine_spec :
    ∀ (t : STree α), clean t = true → t ≠ .nil →
      ∃ Y gs, framesTo t (rightSpinePath t) = some (Y, gs) ∧
        (∃ szy ly dy, Y = .node szy false ly dy .nil) ∧
        fsAfter gs = [] ∧ fsBefore gs ++ seq Y = seq t
  | .nil => by
    intro _ h
    exact absurd rfl h
  | .node sz rev l d .nil => by
    intro hcl _
    obtain ⟨hrev, hl, hr⟩ := clean_node.mp hcl
    refine ⟨.node sz rev l d .nil, [], by simp [rightSpinePath, framesTo], ?_, rfl, ?_⟩
    · exact ⟨sz, l, d, by rw [hrev]⟩
    · simp [fsBefore]
  | .node sz rev l d (.node a b c e f) => by
    intro hcl _
    obtain ⟨hrev, hl, hr⟩ := clean_node.mp hcl
    obtain ⟨Y, gs, hf, hsh, hafter, hbefore⟩ :=
      rightSpine_spec (.node a b c e f) hr (by simp)
    refine ⟨Y, gs ++ [⟨true, rev, sz, d, l⟩], ?_, hsh, ?_, ?_⟩
    · rw [show rightSpinePath (STree.node sz rev l d (.node a b c e f))
          = true :: rightSpinePath (.node a b c e f) from rfl]
      simp [framesTo, hf]
    · rw [fsAfter_append, hafter]
      simp [fsAfter]
    · rw [fsBefore_append]
      rw [show fsBefore [(⟨true, rev, sz, d, l⟩ : Frame α)] = seq l ++ [d] from by
        simp [fsBefore]]
      rw [show seq (STree.node sz rev l d (.node a b c e f))
          = seq l ++ d :: seq (.node a b c e f) from by rw [hrev]; simp [seq]]
      rw [List.append_assoc, List.append_assoc]
      rw [← hbefore]
      simp

theorem attachSplay_spec {t : STree α} {q : List Bool} {szx : Nat} {lx : STree α} {dx : α}
    {rx : STree α} {fs : List (Frame α)} (hok : sizeOk t = true)
    (hf : framesTo t q = some (.node szx false lx dx rx, fs)) (hcs : CleanFrames fs)
    (side : Bool) (v : α) :
    ∃ t2, attachSplay t q side v = some t2 ∧
      seq t2 = fsBefore fs ++ (if side then seq lx ++ [dx] else []) ++
        v :: ((if side then [] else dx :: seq rx) ++ fsAfter fs) ∧
      rootData t2 = some v ∧ sizeOk t2 = true := by
  obtain ⟨hXok, hfo⟩ := framesTo_ok q t _ _ hok hf
  simp only [sizeOk, Bool.and_eq_true, beq_iff_eq] at hXok
  obtain ⟨⟨_, hlx⟩, hrx⟩ := hXok
  cases side
  · have hclf : CleanFrames
        ((⟨false, false, 2 + subtreeSize rx, dx, rx⟩ : Frame α) :: fs) := by
      intro f hf2
      rcases List.mem_cons.mp hf2 with hf2 | hf2
      · rw [hf2]
      · exact hcs f hf2
    obtain ⟨sz2, L, R, hsp, hL, hR⟩ :=
      splayGo_spec (⟨false, false, 2 + subtreeSize rx, dx, rx⟩ :: fs) 1 .nil v .nil hclf
    refine ⟨.node sz2 false L v R, ?_, ?_, rfl, ?_⟩
    · simp only [attachSplay, hf, Bool.false_eq_true, if_false]
      rw [hsp]
    · rw [show seq (STree.node sz2 false L v R) = seq L ++ v :: seq R from by simp [seq]]
      rw [hL, hR]
      simp [fsBefore, fsAfter, seq]
    · rw [← hsp]
      apply splayGo_sizeOk
      · simp [sizeOk, subtreeSize]
      · intro f hf2
        rcases List.mem_cons.mp hf2 with hf2 | hf2
        · rw [hf2]
          exact hrx
        · exact hfo f hf2
  · have hclf : CleanFrames
        ((⟨true, false, 2 + subtreeSize lx, dx, lx⟩ : Frame α) :: fs) := by
      intro f hf2
      rcases List.mem_cons.mp hf2 with hf2 | hf2
      · rw [hf2]
      · exact hcs f hf2
    obtain ⟨sz2, L, R, hsp, hL, hR⟩ :=
      splayGo_spec (⟨true, false, 2 + subtreeSize lx, dx, lx⟩ :: fs) 1 .nil v .nil hclf
    refine ⟨.node sz2 false L v R, ?_, ?_, rfl, ?_⟩
    · simp only [attachSplay, hf, if_true]
      rw [hsp]
    · rw [show seq (STree.node sz2 false L v R) = seq L ++ v :: seq R from by simp [seq]]
      rw [hL, hR]
      simp [fsBefore, fsAfter, seq]
    · rw [← hsp]
      apply splayGo_sizeOk
      · simp [sizeOk, subtreeSize]
      · intro f hf2
        rcases List.mem_cons.mp hf2 with hf2 | hf2
        · rw [hf2]
          exact hlx
        · exact hfo f hf2

theorem insertF_spec (t : STree α) (it : Option (List Bool)) (v : α)
    (hok : sizeOk t = true) (hcl : clean t = true)
    (hit : match it with | none => True | some p => isNodePath t p = true) :
    ∃ t2, insertF t it v = some t2 ∧
      seq t2 = (seq t).take (insRank t it) ++ v :: (seq t).drop (insRank t it) ∧
      rootData t2 = some v ∧ sizeOk t2 = true := by
  rcases it with _ | p
  · cases t with
    | nil =>
      refine ⟨.node 1 false .nil v .nil, rfl, ?_, rfl, by simp [sizeOk, subtreeSize]⟩
      simp [seq, insRank]
    | node a b c d e =>
      obtain ⟨Y, gs, hfY, ⟨szy, ly, dy, hYsh⟩, hafter, hbefore⟩ :=
        rightSpine_spec (.node a b c d e) hcl (by simp)
      subst hYsh
      obtain ⟨t2, heq, hseq, hroot, hok2⟩ :=
        attachSplay_spec hok hfY ((framesTo_clean _ _ _ _ hcl hfY).2) true v
      refine ⟨t2, ?_, ?_, hroot, hok2⟩
      · simp only [insertF]
        exact heq
      · rw [hseq, hafter]
        rw [show insRank (STree.node a b c d e) none
            = (seq (STree.node a b c d e)).length from rfl]
        rw [List.take_length, List.drop_length]
        rw [← hbefore]
        simp [seq]
  · have hp : isNodePath t p = true := hit
    obtain ⟨szx, rvx, lx, dx, rx, fs, hf⟩ := isNodePath_framesTo p t hp
    have hXcl := (framesTo_clean p t _ _ hcl hf).1
    obtain ⟨hrvx, hlxcl, hrxcl⟩ := clean_node.mp hXcl
    subst hrvx
    have hcs := (framesTo_clean p t _ _ hcl hf).2
    have hdecomp := framesTo_decomp hcl hf
    have hrank := framesTo_rank p t _ _ hcl hf
    cases lx with
    | nil =>
      obtain ⟨t2, heq, hseq, hroot, hok2⟩ := attachSplay_spec hok hf hcs false v
      refine ⟨t2, ?_, ?_, hroot, hok2⟩
      · simp only [insertF, hf]
        exact heq
      · rw [hseq]
        have hr : insRank t (some p) = (fsBefore fs).length := by
          rw [show insRank t (some p) = pathRank t p from rfl, hrank]
          simp [posInSeq, seq]
        rw [hr, hdecomp]
        rw [show fsBefore fs ++ seq (STree.node szx false STree.nil dx rx) ++ fsAfter fs
            = fsBefore fs ++ ((dx :: seq rx) ++ fsAfter fs) from by simp [seq]]
        rw [List.take_left, List.drop_left]
        simp
    | node la lb lc ld le =>
      obtain ⟨Y, gs, hfY, ⟨szy, ly, dy, hYsh⟩, hafter, hbefore⟩ :=
        rightSpine_spec (.node la lb lc ld le) hlxcl (by simp)
      subst hYsh
      have hfq : framesTo t (p ++ false :: rightSpinePath (.node la lb lc ld le))
          = some (.node szy false ly dy .nil,
              (gs ++ [⟨false, false, szx, dx, rx⟩]) ++ fs) := by
        rw [framesTo_append]
        simp only [hf, Option.some_bind]
        simp only [framesTo, hfY, Option.map_some']
      have hcs2 := (framesTo_clean _ t _ _ hcl hfq).2
      obtain ⟨t2, heq, hseq, hroot, hok2⟩ := attachSplay_spec hok hfq hcs2 true v
      refine ⟨t2, ?_, ?_, hroot, hok2⟩
      · simp only [insertF, hf]
        exact heq
      · rw [hseq]
        have hr : insRank t (some p)
            = (fsBefore fs ++ seq (STree.node la lb lc ld le)).length := by
          rw [show insRank t (some p) = pathRank t p from rfl, hrank]
          simp [posInSeq, List.length_append]
        rw [hr, hdecomp]
        rw [show seq (STree.node szx false (STree.node la lb lc ld le) dx rx)
            = seq (STree.node la lb lc ld le) ++ dx :: seq rx from by simp [seq]]
        rw [show fsBefore fs ++ (seq (STree.node la lb lc ld le) ++ dx :: seq rx) ++ fsAfter fs
            = (fsBefore fs ++ seq (STree.node la lb lc ld le)) ++
              ((dx :: seq rx) ++ fsAfter fs) from by simp]
        rw [List.take_left, List.drop_left]
        rw [fsBefore_append, fsBefore_append, fsAfter_append, fsAfter_append, hafter]
        rw [← hbefore]
        simp [seq, fsBefore, fsAfter]

theorem get_of_decomp {γ : Type} (xs : List γ) (i : Nat) (v : γ)
    (hx : xs.take i ++ v :: xs.drop (i + 1) = xs) (h : i < xs.length) :
    xs.get ⟨i, h⟩ = v := by
  have hl : (xs.take i).length = i := by
    simp only [List.length_take]
    omega
  rw [List.get_eq_getElem, List.getElem_of_eq hx.symm h,
    List.getElem_append_right (by omega)]
  simp [hl]

/-- Claim C1, evaluated at the failing input: on the tree built from
[1, 2, 3], reverse(1, 3) passes both guards (1 is at most 3, and 3 is at
most the size) but the general path then calls split(3), whose findNode(3)
walks off the rightmost node and dereferences a null child pointer.  The
model therefore yields the undefined-behaviour fault instead of the
reversed sequence [1, 3, 2] the claim promises for every range with
first at most last at most size. -/
theorem claim_C1_eval :
    reverseF (buildTree [1, 2, 3] : STree Nat) 1 3 = .error .ub := rfl

/-- Claim C2, evaluated at the failing inputs: split(3) on the tree built
from [1, 2, 3] (split at size) calls findNode(3), which runs off the tree
and dereferences a null child pointer, and split(0) on the empty tree
dereferences the null root inside findNode(0).  The model yields the
undefined-behaviour fault (none) in both cases, while the claim promises an
empty returned tree with the receiver unchanged, respectively the whole
sequence moved out. -/
theorem claim_C2_eval :
    splitRank (buildTree [1, 2, 3] : STree Nat) 3 = none ∧
    splitRank (.nil : STree Nat) 0 = none := ⟨rfl, rfl⟩

/-- Claim C4, counterexample: the tree obtained from [1, 2, 3] by the
whole-range reverse (logical sequence [3, 2, 1], root flag set) is a
reachable state, and insert at end() physically descends the right spine
without pushing the pending flag, so the new element 9 lands at the front
of the logical sequence instead of the back. -/
theorem claim_C4_counter :
    (insertF (reverseTree (buildTree [1, 2, 3] : STree Nat)) none 9).map seq
      = some [9, 3, 2, 1] ∧
    seq (reverseTree (buildTree [1, 2, 3] : STree Nat)) ++ [9] = [3, 2, 1, 9] ∧
    ([9, 3, 2, 1] : List Nat) ≠ [3, 2, 1, 9] := ⟨rfl, rfl, by decide⟩

/-- Claim C4 (amended): for every size-correct tree in which no
pending-reverse flag is set, and every valid iterator (a node of the tree
or end()), insert places the new value immediately before the element the
iterator refers to (at the back for end()), returns an iterator to the
new element, and that element has been splayed to the root. -/
theorem claim_C4 {β : Type} (t : STree β) (it : Option (List Bool)) (v : β)
    (hok : sizeOk t = true) (hcl : clean t = true)
    (hit : match it with | none => True | some p => isNodePath t p = true) :
    ∃ t2, insertF t it v = some t2 ∧
      seq t2 = (seq t).take (insRank t it) ++ v :: (seq t).drop (insRank t it) ∧
      rootData t2 = some v ∧ sizeOk t2 = true :=
  insertF_spec t it v hok hcl hit

/-- Witness for claim C4: insert 99 before the node at physical path
[true] (rank 2) of the tree built from [1, 2, 3]. -/
theorem claim_C4_witness :
    ∃ t2, insertF (buildTree [1, 2, 3] : STree Nat) (some [true]) 99 = some t2 ∧
      seq t2 = (seq (buildTree [1, 2, 3] : STree Nat)).take
          (insRank (buildTree [1, 2, 3] : STree Nat) (some [true])) ++ 99 ::
        (seq (buildTree [1, 2, 3] : STree Nat)).drop
          (insRank (buildTree [1, 2, 3] : STree Nat) (some [true])) ∧
      rootData t2 = some 99 ∧ sizeOk t2 = true :=
  claim_C4 (buildTree [1, 2, 3]) (some [true]) 99 (by decide) (by decide) (by decide)

/-- Claim C5, counterexample: at i equal to the size (here the one-element
tree [1] and i = 1), split(i) itself has undefined behaviour (findNode(1)
walks off the tree), so the split and merge round trip does not restore
the sequence: the composed run yields no tree at all. -/
theorem claim_C5_counter :
    (splitRank (buildTree [1] : STree Nat) 1).bind
      (fun p => (mergeFull p.1 p.2).map (fun q => seq q.1)) = none ∧
    (none : Option (List Nat)) ≠ some (seq (buildTree [1] : STree Nat)) :=
  ⟨rfl, by decide⟩

/-- Claim C5 (amended): for every size-correct tree and every index i
strictly below the size, splitting at i and merging the returned suffix
back restores the original logical sequence, and the merge leaves the
argument tree empty. -/
theorem claim_C5 {β : Type} (t : STree β) (i : Nat) (hok : sizeOk t = true)
    (hi : i < subtreeSize t) :
    ∃ lt rt m, splitRank t i = some (lt, rt) ∧ mergeFull lt rt = some (m, .nil) ∧
      seq m = seq t ∧ sizeOk m = true := by
  obtain ⟨lt, rt, heq, h1, h2, h3, h4, _⟩ := splitRank_spec t i hok hi
  obtain ⟨m, hm, hs, hokm, _, _⟩ := mergeFull_spec lt rt h3 h4
  refine ⟨lt, rt, m, heq, hm, ?_, hokm⟩
  rw [hs, h1, h2, List.take_append_drop]

/-- Witness for claim C5 on the tree built from [1, 2, 3] at i = 1. -/
theorem claim_C5_witness :
    ∃ lt rt m, splitRank (buildTree [1, 2, 3] : STree Nat) 1 = some (lt, rt) ∧
      mergeFull lt rt = some (m, .nil) ∧
      seq m = seq (buildTree [1, 2, 3] : STree Nat) ∧ sizeOk m = true :=
  claim_C5 (buildTree [1, 2, 3]) 1 (by decide) (by decide)

/-- Claim C6: for every size-correct tree and valid index i, at(i) returns
the element at in-order position i of the logical sequence (the reference
array model), the splay it performs leaves the logical sequence unchanged,
and the size invariant still holds afterwards, so repeated accesses stay
correct. -/
theorem claim_C6 {β : Type} (t : STree β) (i : Nat) (hok : sizeOk t = true)
    (hi : i < subtreeSize t) :
    ∃ v t2, atIdx t i = .ok (v, t2) ∧
      (∀ h : i < (seq t).length, (seq t).get ⟨i, h⟩ = v) ∧
      seq t2 = seq t ∧ sizeOk t2 = true := by
  obtain ⟨v, t2, heq, htd, hseq, hok2⟩ := atIdx_spec t i hok hi
  exact ⟨v, t2, heq, fun h => get_of_decomp (seq t) i v htd h, hseq, hok2⟩

/-- Witness for claim C6 on the tree built from [4, 5, 6] at index 2. -/
theorem claim_C6_witness :
    ∃ v t2, atIdx (buildTree [4, 5, 6] : STree Nat) 2 = .ok (v, t2) ∧
      (∀ h : 2 < (seq (buildTree [4, 5, 6] : STree Nat)).length,
        (seq (buildTree [4, 5, 6] : STree Nat)).get ⟨2, h⟩ = v) ∧
      seq t2 = seq (buildTree [4, 5, 6] : STree Nat) ∧ sizeOk t2 = true :=
  claim_C6 (buildTree [4, 5, 6]) 2 (by decide) (by decide)

/-- Claim C7: for every tree, at(size()) and reverse(0, size() + 1) both
signal the out-of-range condition.  In the source both checks are the very
first statements of the respective functions (and the reverse guards run
before any split), so the throw happens before any mutation: the model
reaches the error before constructing any tree. -/
theorem claim_C7 {β : Type} (t : STree β) :
    atIdx t (subtreeSize t) = .error .outOfRange ∧
    reverseF t 0 (subtreeSize t + 1) = .error .outOfRange := by
  constructor
  · rw [atIdx, if_pos (Nat.le_refl _)]
  · rw [reverseF, if_neg (by omega), if_neg (by omega), if_pos (by omega)]

/-- Claim C8: after any sequence of public operations applied to a tree
built from any list — iterator arguments given as physical root paths,
any trees the sequence merges or swaps in themselves size-correct, and
the run being one the source completes (an execution with undefined behaviour,
modeled as none, has no after-state to state an invariant of; thrown
errors are covered, they leave the tree exactly as the source leaves
it) — every node satisfies
subtree_size = 1 + subtree_size(left) + subtree_size(right), and the size
read from the cached root field agrees with the length of the logical
sequence. -/
theorem claim_C8 {β : Type} (xs : List β) (ops : List (Op β)) (u : STree β)
    (hops : opsOk ops = true) (hrun : applyOps ops (buildTree xs) = some u) :
    sizeOk u = true ∧ subtreeSize u = (seq u).length := by
  have h := applyOps_ok ops (buildTree xs) u (buildTree_ok xs) hops hrun
  exact ⟨h, (length_seq h).symm⟩

/-- Witness for claim C8: the operation list opsW, which exercises every
public operation (iterator walks and a flagged tree included) on the tree
built from [1, 2, 3], completes with the tree opsWRes. -/
theorem claim_C8_witness :
    sizeOk opsWRes = true ∧ subtreeSize opsWRes = (seq opsWRes).length :=
  claim_C8 [1, 2, 3] opsW opsWRes (by decide) (by rfl)

/-- Claim C9: on every size-correct tree without pending-reverse flags (in
particular any tree reverse was never called on, including the empty
tree), insert at end() is accepted and appends the value as the new last
element; on the empty tree the result is the one-element sequence, and the
returned iterator (the new root, since the new node is splayed to the
root) refers to the inserted element. -/
theorem claim_C9 {β : Type} (t : STree β) (v : β) (hok : sizeOk t = true)
    (hcl : clean t = true) :
    ∃ t2, insertF t none v = some t2 ∧ seq t2 = seq t ++ [v] ∧
      rootData t2 = some v ∧ sizeOk t2 = true := by
  obtain ⟨t2, heq, hseq, hroot, hok2⟩ := insertF_spec t none v hok hcl trivial
  refine ⟨t2, heq, ?_, hroot, hok2⟩
  rw [hseq, show insRank t none = (seq t).length from rfl, List.take_length,
    List.drop_length]

/-- Witness for claim C9 on the empty tree and on no further hypotheses:
inserting 7 at end() of the empty tree yields the sequence [7]. -/
theorem claim_C9_witness :
    ∃ t2, insertF (.nil : STree Nat) none 7 = some t2 ∧
      seq t2 = seq (.nil : STree Nat) ++ [7] ∧
      rootData t2 = some 7 ∧ sizeOk t2 = true :=
  claim_C9 .nil 7 (by decide) (by decide)

/-- Claim C10: erase(pos) first increments a copy of pos, and incrementing
the end iterator throws (the sentinel is its own parent) before the range
erase ever runs, so erase(end()) signals the error with no mutation: the
model returns the fault without producing a tree, for every tree. -/
theorem claim_C10 {β : Type} (t : STree β) :
    eraseOne t none = .error .endIncrement := rfl

end Splay

